import Mathlib

/-!
Verification of the lattice-boosting graph builder
(`egs/librispeech/s5/lattice_boosting/boosting_fst_lib.py`).

The development shallowly embeds the builder: the `pywrapfst.VectorFst`
mutable automaton is modelled as a record of per-state arc lists and final
weights, weights are modelled as rationals, and the Python dict holding the
vocabulary is modelled as an association list whose lookup returns the last
binding (Python dict comprehension semantics).  Fallible operations return
`Option`/`Except`.
-/

namespace Boosting

/-- An automaton arc, mirroring `pywrapfst.Arc`: input label, output label,
weight and destination state. -/
structure Arc where
  ilabel : Nat
  olabel : Nat
  weight : Rat
  nextstate : Nat
deriving DecidableEq, Repr

/-- A mutable vector FST, mirroring `pywrapfst.VectorFst`: one arc list per
state, one final weight per state (`none` models the infinite final weight of
a non-final state), and an optional start state (`none` models `kNoStateId`).
-/
structure VectorFst where
  arcsOf : List (List Arc)
  finalOf : List (Option Rat)
  start : Option Nat
deriving DecidableEq, Repr

/-- The freshly constructed FST: `fst.VectorFst()` has no states and no
start state. -/
def VectorFst.empty : VectorFst := ⟨[], [], none⟩

/-- `f.num_states()`. -/
def VectorFst.numStates (f : VectorFst) : Nat := f.arcsOf.length

/-- `f.add_state()`: appends a fresh state with no arcs and infinite final
weight, returning the updated FST together with the new state id. -/
def VectorFst.addState (f : VectorFst) : VectorFst × Nat :=
  (⟨f.arcsOf ++ [[]], f.finalOf ++ [none], f.start⟩, f.numStates)

/-- `f.add_arc(s, a)`: appends arc `a` to the arc list of state `s`
(callers only pass valid state ids, on which `List.set` acts). -/
def VectorFst.addArc (f : VectorFst) (s : Nat) (a : Arc) : VectorFst :=
  { f with arcsOf := f.arcsOf.set s (f.arcsOf.getD s [] ++ [a]) }

/-- `f.set_final(s, w)`: `w = some c` is a finite final weight `c`,
`w = none` is `float("inf")` (non-final). -/
def VectorFst.setFinal (f : VectorFst) (s : Nat) (w : Option Rat) : VectorFst :=
  { f with finalOf := f.finalOf.set s w }

/-- `f.set_start(s)`. -/
def VectorFst.setStart (f : VectorFst) (s : Nat) : VectorFst :=
  { f with start := some s }

/-- The arcs leaving state `s` (empty for an out-of-range id). -/
def arcsAt (f : VectorFst) (s : Nat) : List Arc := f.arcsOf.getD s []

/-- The final weight of state `s` (`none`, i.e. non-final, for an
out-of-range id). -/
def finalAt (f : VectorFst) (s : Nat) : Option Rat := f.finalOf.getD s none

/-- Lookup in the vocabulary map.  The Python builder stores the vocabulary
in a dict built by a comprehension, where a later duplicate binding overrides
an earlier one, so the last binding for a key wins. -/
def vlookup (vocab : List (String × Nat)) (w : String) : Option Nat :=
  match vocab with
  | [] => none
  | (k, v) :: rest =>
    match vlookup rest w with
    | some r => some r
    | none => if k = w then some v else none

/-- `[word_to_int[w] for w in boosted_phrase]`: projects a phrase to its id
sequence, failing (Python `KeyError`) as soon as one word is absent. -/
def projectPhrase (vocab : List (String × Nat)) : List String → Option (List Nat)
  | [] => some []
  | w :: ws =>
    match vlookup vocab w, projectPhrase vocab ws with
    | some i, some is => some (i :: is)
    | _, _ => none

/-- `[w for w in boosted_phrase if w not in set(word_to_int.keys())]`: the
out-of-vocabulary words of a phrase, in order, duplicates kept. -/
def oovWords (vocab : List (String × Nat)) (p : List String) : List String :=
  p.filter (fun w => (vlookup vocab w).isNone)

/-- The cumulative discount put on the arc of a phrase's last word:
`len(boosted_phrase_ints) * word_discount + phrase_discount`. -/
def phraseWeight (ids : List Nat) (wd pd : Rat) : Rat :=
  (ids.length : Rat) * wd + pd

/-- The result of `__gen_initial_graph` together with the diagnostics it
logs: one `(oovs, boosted_phrase)` pair per `logging.warning` call. -/
structure GenResult where
  g : VectorFst
  diags : List (List String × List String)
deriving DecidableEq, Repr

/-- The `for w in w_rest` loop of `__gen_initial_graph`: starting from state
`fs.2`, adds one fresh state and one zero-weight arc per remaining word,
returning the FST and the last state reached. -/
def addRest (fs : VectorFst × Nat) : List Nat → VectorFst × Nat
  | [] => fs
  | w :: rest =>
    let fn := fs.1.addState
    addRest (fn.1.addArc fs.2 ⟨w, w, 0, fn.2⟩, fn.2) rest

/-- The body of the `for boosted_phrase in boosted_phrases` loop of
`__gen_initial_graph`: project the phrase (on failure log the OOV words and
the phrase, and skip), skip an empty projection, otherwise build the chain
of fresh states, put the cumulative weight on the last word's arc, and mark
the last fresh state final with zero weight.  `sstart` is the start state
created before the loop. -/
def genStep (vocab : List (String × Nat)) (wd pd : Rat) (sstart : Nat)
    (acc : GenResult) (p : List String) : GenResult :=
  match projectPhrase vocab p with
  | none => { acc with diags := acc.diags ++ [(oovWords vocab p, p)] }
  | some ids =>
    if h : ids = [] then acc
    else
      let wLast := ids.getLast h
      let f1 := addRest (acc.g, sstart) ids.dropLast
      let f2 := f1.1.addState
      let f3 := f2.1.addArc f1.2 ⟨wLast, wLast, phraseWeight ids wd pd, f2.2⟩
      { acc with g := f3.setFinal f2.2 (some 0) }

/-- `BoostingFstBuilder.__gen_initial_graph`: create the start state, then
process every phrase in order. -/
def genInitialGraph (phrases : List (List String)) (vocab : List (String × Nat))
    (wd pd : Rat) : GenResult :=
  let f0 := (VectorFst.empty.addState).1.setStart 0
  phrases.foldl (genStep vocab wd pd 0) { g := f0, diags := [] }

/-- One iteration of the canonicalization loop of `lattice_boosting_graph`
(lines 88–94): for a state `s` other than the start state, add an epsilon
arc to the start state with zero weight, and make `s` non-final if it was
final. -/
def canonStep (sstart : Nat) (f : VectorFst) (s : Nat) : VectorFst :=
  if s ≠ sstart then
    let f1 := f.addArc s ⟨0, 0, 0, sstart⟩
    if (finalAt f1 s).isSome then f1.setFinal s none else f1
  else f

/-- The canonicalization rewrite of `lattice_boosting_graph` (lines 87–105),
applied to the determinized automaton: epsilon back-edges from every
non-start state, only the start state final (with zero weight), and a
zero-weight rho self-loop at the start state.  Returns `none` when the FST
has no start state, where `pywrapfst` would raise on `set_final`. -/
def canonicalize (f : VectorFst) (rho : Nat) : Option VectorFst :=
  match f.start with
  | none => none
  | some sstart =>
    let f1 := (List.range f.numStates).foldl (canonStep sstart) f
    let f2 := f1.setFinal sstart (some 0)
    some (f2.addArc sstart ⟨rho, rho, 0, sstart⟩)

/-- The error taxonomy of builder construction (§7 of the design):
malformed vocabulary table, missing epsilon entry, missing wildcard entry. -/
inductive VocabularyError
  | malformedTable
  | missingEpsilon
  | missingWildcard
deriving DecidableEq, Repr

/-- The state of a successfully constructed `BoostingFstBuilder`: the usable
lookup table (epsilon and wildcard removed) and the captured wildcard id. -/
structure Builder where
  word_to_int : List (String × Nat)
  rho_int : Nat
deriving DecidableEq, Repr

/-- Whitespace recognized by the table tokenizer. -/
def isWS (c : Char) : Bool := c = ' ' || c = '\t'

/-- Splits a character list into maximal whitespace-free tokens;
`cur` is the current token accumulated in reverse. -/
def tokensGo (cur : List Char) : List Char → List (List Char)
  | [] => if cur.isEmpty then [] else [cur.reverse]
  | c :: rest =>
    if isWS c then
      if cur.isEmpty then tokensGo [] rest else cur.reverse :: tokensGo [] rest
    else tokensGo (c :: cur) rest

/-- The numeric value of a decimal digit character, if it is one. -/
def digitVal (c : Char) : Option Nat :=
  if 48 ≤ c.toNat ∧ c.toNat ≤ 57 then some (c.toNat - 48) else none

/-- Reads a decimal numeral, most significant digit first. -/
def natOfDigitsGo (acc : Nat) : List Char → Option Nat
  | [] => some acc
  | c :: rest =>
    match digitVal c with
    | none => none
    | some d => natOfDigitsGo (10 * acc + d) rest

/-- Parses a non-empty all-digit token as a non-negative integer id. -/
def parseNat : List Char → Option Nat
  | [] => none
  | cs => natOfDigitsGo 0 cs

/-- Modelled from the spec: §4.1/§6 — parsing of the vocabulary table is done
by the external loader (`np.loadtxt` in the source, which is not part of this
repository); the table is a two-column whitespace-separated text resource,
one symbol and its non-negative integer id per line.  Blank lines are
skipped; a non-blank line that does not consist of exactly a symbol token
and an integer token is malformed and loading fails. -/
def loadVocabTable : List String → Option (List (String × Nat))
  | [] => some []
  | l :: rest =>
    match tokensGo [] l.toList with
    | [] => loadVocabTable rest
    | [w, n] =>
      match parseNat n, loadVocabTable rest with
      | some i, some tbl => some ((String.mk w, i) :: tbl)
      | _, _ => none
    | _ => none

/-- `BoostingFstBuilder.__init__`: load the table into the vocabulary map,
delete the epsilon entry `"<eps>"` (failing if absent), capture the wildcard
id from the `"#0"` entry and delete it (failing if absent).  Each failure is
a `VocabularyError` propagated to the caller, so no builder with a
partially-loaded vocabulary is ever produced. -/
def builderInit (lines : List String) : Except VocabularyError Builder :=
  match loadVocabTable lines with
  | none => .error .malformedTable
  | some tbl =>
    if (vlookup tbl "<eps>").isNone then .error .missingEpsilon
    else
      let m1 := tbl.filter (fun kv => kv.1 ≠ "<eps>")
      match vlookup m1 "#0" with
      | none => .error .missingWildcard
      | some rho => .ok ⟨m1.filter (fun kv => kv.1 ≠ "#0"), rho⟩

/-- `BoostingFstBuilder.lattice_boosting_graph`, parametrized by the
external determinization routine `det` (the `fst.determinize` call, which
belongs to the external OpenFst library, not to this repository): build the
raw graph, determinize it, and canonicalize the result. -/
def lattice_boosting_graph (det : VectorFst → VectorFst) (b : Builder)
    (phrases : List (List String)) (wd pd : Rat) : Option VectorFst :=
  canonicalize (det (genInitialGraph phrases b.word_to_int wd pd).g) b.rho_int

/-- Modelled from the spec: §4.3 — determinization is delegated to an
external routine of the automaton library (missing from this repository);
the spec only promises an equivalent deterministic automaton.  An automaton
that is already deterministic is an equivalent deterministic automaton of
itself, so on an already-deterministic raw graph (a single phrase's chain,
or the bare start state when every phrase was dropped) the external call is
modelled as the identity function. -/
def detIdGraph (vocab : List (String × Nat)) (rho : Nat)
    (phrases : List (List String)) (wd pd : Rat) : Option VectorFst :=
  lattice_boosting_graph (fun g => g) ⟨vocab, rho⟩ phrases wd pd

/-- A nonempty first-return accepting path avoiding the wildcard label:
`frFrom f rho s0 s pa` holds when the arcs `pa`, read from state `s`, are
consecutive arcs of `f`, none carries the wildcard input label, the start
state `s0` is reached exactly at the end of the path, and not before. -/
def frFrom (f : VectorFst) (rho : Nat) (s0 : Nat) : Nat → List Arc → Bool
  | _, [] => false
  | s, a :: rest =>
    decide (a ∈ arcsAt f s) && decide (a.ilabel ≠ rho) &&
      (if a.nextstate = s0 then rest.isEmpty else frFrom f rho s0 a.nextstate rest)

/-- A non-wildcard first-return accepting path of `f`: a nonempty arc
sequence from the start state back to the start state, never visiting the
start state in between, using no arc with the wildcard input label, with the
start state final. -/
def frPath (f : VectorFst) (rho : Nat) (pa : List Arc) : Bool :=
  match f.start with
  | none => false
  | some s0 => (finalAt f s0).isSome && frFrom f rho s0 s0 pa

/-- The word labels of a path: input labels with epsilon removed. -/
def pathWords (pa : List Arc) : List Nat :=
  (pa.map (fun a => a.ilabel)).filter (fun i => i ≠ 0)

/-- The total arc weight of a path. -/
def pathWeight (pa : List Arc) : Rat := (pa.map (fun a => a.weight)).sum

/-- An accepting path of `f` read from state `s`: consecutive arcs of `f`
ending in a final state. -/
def accFrom (f : VectorFst) : Nat → List Arc → Bool
  | s, [] => (finalAt f s).isSome
  | s, a :: rest => decide (a ∈ arcsAt f s) && accFrom f a.nextstate rest

/-- An accepting path of `f` from its start state; with no start state there
is none. -/
def accPath (f : VectorFst) (pa : List Arc) : Bool :=
  match f.start with
  | none => false
  | some s0 => accFrom f s0 pa

/-- The number of arcs of `f` entering state `t`. -/
def arcsIn (f : VectorFst) (t : Nat) : Nat :=
  ∑ s ∈ Finset.range f.numStates, (arcsAt f s).countP (fun a => decide (a.nextstate = t))

/-- The structural invariant of the raw prefix automaton: start state `0`,
at least one state, one final weight per state, every arc targets a valid
non-start state, every non-start state has exactly one incoming arc (so no
state is shared between two phrases), and every arc entering a non-final
state carries zero weight (the prefix-word arcs). -/
def GenInv (g : VectorFst) : Prop :=
  g.start = some 0 ∧
  1 ≤ g.numStates ∧
  g.finalOf.length = g.numStates ∧
  (∀ a ∈ g.arcsOf.flatten, a.nextstate ≠ 0 ∧ a.nextstate < g.numStates) ∧
  (∀ t, arcsIn g t = if t ≠ 0 ∧ t < g.numStates then 1 else 0) ∧
  (∀ a ∈ g.arcsOf.flatten, finalAt g a.nextstate = none → a.weight = 0)

/-- Modelled from the spec: §4.3 — the guarantees of the external
determinization routine (missing from this repository) that the
canonicalization rewrite relies on: the output is a well-formed automaton
(one final weight per state, a valid start state) and its arc labels all
occur as arc labels of the input.  `g0` is the raw graph handed to
`fst.determinize`, `g` its result. -/
def DetOk (g0 g : VectorFst) : Prop :=
  g.finalOf.length = g.arcsOf.length ∧
  (∃ s, g.start = some s ∧ s < g.numStates) ∧
  (∀ a ∈ g.arcsOf.flatten, ∃ b ∈ g0.arcsOf.flatten,
      (a.ilabel = b.ilabel ∨ a.ilabel = b.olabel) ∧
      (a.olabel = b.ilabel ∨ a.olabel = b.olabel))

instance (g0 g : VectorFst) : Decidable (DetOk g0 g) := by
  unfold DetOk
  infer_instance

/-- The `k`-th arc of the chain built for a single phrase with id sequence
`ids`: it consumes `ids[k]`, carries the cumulative phrase weight on the last
word and zero before, and moves to state `k+1`. -/
def chainArcAt (ids : List Nat) (W : Rat) (k : Nat) : Arc :=
  ⟨ids.getD k 0, ids.getD k 0, if k + 1 = ids.length then W else 0, k + 1⟩

/-- The candidate first-return path tails of the canonicalized single-phrase
graph: from chain state `k`, follow `m` further chain arcs and then the
epsilon back-edge to the start state. -/
def tailArcs (ids : List Nat) (W : Rat) : Nat → Nat → List Arc
  | _, 0 => [⟨0, 0, 0, 0⟩]
  | k, m + 1 => chainArcAt ids W k :: tailArcs ids W (k + 1) m

/-! ### Basic list and FST-operation lemmas -/

theorem getD_ge {α : Type} (l : List α) (d : α) {i : Nat} (h : l.length ≤ i) :
    l.getD i d = d := by
  simp [List.getD_eq_getElem?_getD, List.getElem?_eq_none h]

theorem getD_set_self {α : Type} (l : List α) (i : Nat) (a d : α) (h : i < l.length) :
    (l.set i a).getD i d = a := by
  simp [List.getD_eq_getElem?_getD, List.getElem?_set_self', h]

theorem getD_set_ne {α : Type} (l : List α) {i j : Nat} (a d : α) (h : i ≠ j) :
    (l.set i a).getD j d = l.getD j d := by
  simp [List.getD_eq_getElem?_getD, List.getElem?_set_ne h]

theorem getD_append_left {α : Type} (l m : List α) (d : α) {i : Nat} (h : i < l.length) :
    (l ++ m).getD i d = l.getD i d := by
  simp [List.getD_eq_getElem?_getD, List.getElem?_append_left h]

theorem getD_append_last {α : Type} (l : List α) (x d : α) :
    (l ++ [x]).getD l.length d = x := by
  simp [List.getD_eq_getElem?_getD]

theorem numStates_addState (f : VectorFst) : (f.addState).1.numStates = f.numStates + 1 := by
  simp [VectorFst.addState, VectorFst.numStates]

theorem numStates_addArc (f : VectorFst) (s : Nat) (a : Arc) :
    (f.addArc s a).numStates = f.numStates := by
  simp [VectorFst.addArc, VectorFst.numStates]

theorem numStates_setFinal (f : VectorFst) (s : Nat) (w : Option Rat) :
    (f.setFinal s w).numStates = f.numStates := by
  simp [VectorFst.setFinal, VectorFst.numStates]

theorem addState_snd (f : VectorFst) : (f.addState).2 = f.numStates := rfl

theorem start_addState (f : VectorFst) : (f.addState).1.start = f.start := rfl

theorem start_addArc (f : VectorFst) (s : Nat) (a : Arc) : (f.addArc s a).start = f.start := rfl

theorem start_setFinal (f : VectorFst) (s : Nat) (w : Option Rat) :
    (f.setFinal s w).start = f.start := rfl

theorem finalLen_addState (f : VectorFst) :
    (f.addState).1.finalOf.length = f.finalOf.length + 1 := by
  simp [VectorFst.addState]

theorem finalLen_addArc (f : VectorFst) (s : Nat) (a : Arc) :
    (f.addArc s a).finalOf.length = f.finalOf.length := rfl

theorem finalLen_setFinal (f : VectorFst) (s : Nat) (w : Option Rat) :
    (f.setFinal s w).finalOf.length = f.finalOf.length := by
  simp [VectorFst.setFinal]

theorem arcsAt_ge (f : VectorFst) {t : Nat} (h : f.numStates ≤ t) : arcsAt f t = [] :=
  getD_ge _ _ h

theorem arcsAt_addState (f : VectorFst) (t : Nat) : arcsAt (f.addState).1 t = arcsAt f t := by
  unfold arcsAt VectorFst.addState
  rcases Nat.lt_trichotomy t f.arcsOf.length with h | h | h
  · exact getD_append_left _ _ _ h
  · subst h
    rw [getD_append_last, getD_ge _ _ (Nat.le_refl _)]
  · rw [getD_ge, getD_ge _ _ (Nat.le_of_lt h)]
    simp
    omega

theorem arcsAt_addArc_self (f : VectorFst) {s : Nat} (a : Arc) (h : s < f.numStates) :
    arcsAt (f.addArc s a) s = arcsAt f s ++ [a] := by
  unfold arcsAt VectorFst.addArc
  exact getD_set_self _ _ _ _ h

theorem arcsAt_addArc_ne (f : VectorFst) {s t : Nat} (a : Arc) (h : s ≠ t) :
    arcsAt (f.addArc s a) t = arcsAt f t := by
  unfold arcsAt VectorFst.addArc
  exact getD_set_ne _ _ _ h

theorem arcsAt_setFinal (f : VectorFst) (s : Nat) (w : Option Rat) (t : Nat) :
    arcsAt (f.setFinal s w) t = arcsAt f t := rfl

theorem finalAt_addArc (f : VectorFst) (s : Nat) (a : Arc) (t : Nat) :
    finalAt (f.addArc s a) t = finalAt f t := rfl

theorem finalAt_addState (f : VectorFst) (t : Nat) : finalAt (f.addState).1 t = finalAt f t := by
  unfold finalAt VectorFst.addState
  rcases Nat.lt_trichotomy t f.finalOf.length with h | h | h
  · exact getD_append_left _ _ _ h
  · subst h
    rw [getD_append_last, getD_ge _ _ (Nat.le_refl _)]
  · rw [getD_ge, getD_ge _ _ (Nat.le_of_lt h)]
    simp
    omega

theorem finalAt_setFinal_self (f : VectorFst) {s : Nat} (w : Option Rat)
    (h : s < f.finalOf.length) : finalAt (f.setFinal s w) s = w := by
  unfold finalAt VectorFst.setFinal
  exact getD_set_self _ _ _ _ h

theorem finalAt_setFinal_ne (f : VectorFst) {s t : Nat} (w : Option Rat) (h : s ≠ t) :
    finalAt (f.setFinal s w) t = finalAt f t := by
  unfold finalAt VectorFst.setFinal
  exact getD_set_ne _ _ _ h

/-! ### Characterization of the chain-building loop `addRest` -/

theorem addRest_cons (f : VectorFst) (sp w : Nat) (rest : List Nat) :
    addRest (f, sp) (w :: rest) =
      addRest ((f.addState).1.addArc sp ⟨w, w, 0, f.numStates⟩, f.numStates) rest := rfl

theorem addRest_numStates (ws : List Nat) : ∀ (f : VectorFst) (sp : Nat),
    (addRest (f, sp) ws).1.numStates = f.numStates + ws.length := by
  induction ws with
  | nil => intro f sp; rfl
  | cons w rest ih =>
    intro f sp
    rw [addRest_cons, ih]
    simp only [numStates_addArc, numStates_addState, List.length_cons]
    omega

theorem addRest_start (ws : List Nat) : ∀ (f : VectorFst) (sp : Nat),
    (addRest (f, sp) ws).1.start = f.start := by
  induction ws with
  | nil => intro f sp; rfl
  | cons w rest ih =>
    intro f sp
    rw [addRest_cons, ih]
    rfl

theorem addRest_finalLen (ws : List Nat) : ∀ (f : VectorFst) (sp : Nat),
    (addRest (f, sp) ws).1.finalOf.length = f.finalOf.length + ws.length := by
  induction ws with
  | nil => intro f sp; rfl
  | cons w rest ih =>
    intro f sp
    rw [addRest_cons, ih]
    simp only [finalLen_addArc, finalLen_addState, List.length_cons]
    omega

theorem addRest_finalAt (ws : List Nat) : ∀ (f : VectorFst) (sp t : Nat),
    finalAt (addRest (f, sp) ws).1 t = finalAt f t := by
  induction ws with
  | nil => intro f sp t; rfl
  | cons w rest ih =>
    intro f sp t
    rw [addRest_cons, ih, finalAt_addArc, finalAt_addState]

theorem addRest_snd (ws : List Nat) (hne : ws ≠ []) : ∀ (f : VectorFst) (sp : Nat),
    (addRest (f, sp) ws).2 = f.numStates + ws.length - 1 := by
  induction ws with
  | nil => exact absurd rfl hne
  | cons w rest ih =>
    intro f sp
    rw [addRest_cons]
    rcases eq_or_ne rest [] with h | h
    · subst h
      simp only [addRest, numStates_addArc, numStates_addState, List.length_cons,
        List.length_nil]
      omega
    · rw [ih h]
      simp only [numStates_addArc, numStates_addState, List.length_cons]
      omega

theorem addRest_arcsAt_old (ws : List Nat) : ∀ (f : VectorFst) (sp t : Nat),
    t < f.numStates → t ≠ sp → arcsAt (addRest (f, sp) ws).1 t = arcsAt f t := by
  induction ws with
  | nil => intro f sp t _ _; rfl
  | cons w rest ih =>
    intro f sp t ht hsp
    rw [addRest_cons, ih _ _ _ (by simp [numStates_addArc, numStates_addState]; omega)
        (by omega), arcsAt_addArc_ne _ _ (fun h => hsp h.symm), arcsAt_addState]

theorem addRest_arcsAt_sp (w : Nat) (rest : List Nat) (f : VectorFst) {sp : Nat}
    (h : sp < f.numStates) :
    arcsAt (addRest (f, sp) (w :: rest)).1 sp = arcsAt f sp ++ [⟨w, w, 0, f.numStates⟩] := by
  rw [addRest_cons, addRest_arcsAt_old rest _ _ _
      (by simp [numStates_addArc, numStates_addState]; omega) (by omega),
    arcsAt_addArc_self _ _ (by simp [numStates_addState]; omega), arcsAt_addState]

theorem addRest_arcsAt_fresh (ws : List Nat) : ∀ (f : VectorFst) (sp : Nat),
    sp < f.numStates → ∀ j : Nat, j + 1 < ws.length →
    arcsAt (addRest (f, sp) ws).1 (f.numStates + j) =
      [⟨ws.getD (j + 1) 0, ws.getD (j + 1) 0, 0, f.numStates + j + 1⟩] := by
  induction ws with
  | nil => intro f sp _ j hj; simp at hj
  | cons w rest ih =>
    intro f sp hsp j hj
    rw [addRest_cons]
    match j, hj with
    | 0, hj =>
      match rest, hj with
      | w2 :: rest2, _ =>
        have harc : arcsAt ((f.addState).1.addArc sp ⟨w, w, 0, f.numStates⟩) f.numStates = [] := by
          rw [arcsAt_addArc_ne _ _ (by omega), arcsAt_addState,
            arcsAt_ge _ (Nat.le_refl _)]
        simp only [Nat.add_zero]
        rw [addRest_arcsAt_sp w2 rest2 _
          (by simp only [numStates_addArc, numStates_addState]; omega), harc]
        simp [numStates_addArc, numStates_addState]
    | j + 1, hj =>
      have := ih ((f.addState).1.addArc sp ⟨w, w, 0, f.numStates⟩) f.numStates
        (by simp [numStates_addArc, numStates_addState]) j (by simp at hj ⊢; omega)
      simp only [numStates_addArc, numStates_addState] at this
      rw [show f.numStates + (j + 1) = f.numStates + 1 + j by omega, this]
      simp only [List.getD_cons_succ]

theorem addRest_arcsAt_end (ws : List Nat) (hne : ws ≠ []) : ∀ (f : VectorFst) (sp : Nat),
    sp < f.numStates →
    arcsAt (addRest (f, sp) ws).1 (f.numStates + ws.length - 1) = [] := by
  induction ws with
  | nil => exact absurd rfl hne
  | cons w rest ih =>
    intro f sp hsp
    rw [addRest_cons]
    rcases eq_or_ne rest [] with h | h
    · subst h
      show arcsAt ((f.addState).1.addArc sp ⟨w, w, 0, f.numStates⟩) (f.numStates + 1 - 1) = []
      rw [Nat.add_sub_cancel, arcsAt_addArc_ne _ _ (by omega), arcsAt_addState,
        arcsAt_ge _ (Nat.le_refl _)]
    · have := ih h ((f.addState).1.addArc sp ⟨w, w, 0, f.numStates⟩) f.numStates
        (by simp [numStates_addArc, numStates_addState])
      simp only [numStates_addArc, numStates_addState] at this
      rw [show f.numStates + (w :: rest).length - 1 = f.numStates + 1 + rest.length - 1 by
        simp only [List.length_cons]; omega, this]

/-! ### Unfolding the per-phrase step -/

theorem genStep_oov {vocab : List (String × Nat)} {wd pd : Rat} {sstart : Nat}
    {acc : GenResult} {p : List String} (h : projectPhrase vocab p = none) :
    genStep vocab wd pd sstart acc p =
      { acc with diags := acc.diags ++ [(oovWords vocab p, p)] } := by
  simp [genStep, h]

theorem genStep_nilIds {vocab : List (String × Nat)} {wd pd : Rat} {sstart : Nat}
    {acc : GenResult} {p : List String} (h : projectPhrase vocab p = some []) :
    genStep vocab wd pd sstart acc p = acc := by
  simp [genStep, h]

theorem genStep_accepted {vocab : List (String × Nat)} {wd pd : Rat} {sstart : Nat}
    {acc : GenResult} {p : List String} {ids : List Nat}
    (h : projectPhrase vocab p = some ids) (hne : ids ≠ []) :
    genStep vocab wd pd sstart acc p =
      { acc with g :=
          ((((addRest (acc.g, sstart) ids.dropLast).1.addState).1.addArc
              (addRest (acc.g, sstart) ids.dropLast).2
              ⟨ids.getLast hne, ids.getLast hne, phraseWeight ids wd pd,
                (addRest (acc.g, sstart) ids.dropLast).1.numStates⟩).setFinal
            (addRest (acc.g, sstart) ids.dropLast).1.numStates (some 0)) } := by
  simp [genStep, h, hne, addState_snd]

/-! ### Vocabulary lookup and phrase projection -/

theorem vlookup_mem {vocab : List (String × Nat)} {w : String} {i : Nat}
    (h : vlookup vocab w = some i) : i ∈ vocab.map Prod.snd := by
  induction vocab with
  | nil => simp [vlookup] at h
  | cons kv rest ih =>
    rw [vlookup] at h
    match hr : vlookup rest w with
    | some r =>
      rw [hr] at h
      cases h
      exact List.mem_cons_of_mem _ (ih hr)
    | none =>
      rw [hr] at h
      by_cases hk : kv.1 = w
      · rw [if_pos hk] at h
        cases h
        exact List.mem_cons_self _ _
      · rw [if_neg hk] at h
        cases h

theorem vlookup_filter_ne {l : List (String × Nat)} {k k' : String} (h : k ≠ k') :
    vlookup (l.filter (fun kv => kv.1 ≠ k')) k = vlookup l k := by
  induction l with
  | nil => rfl
  | cons kv rest ih =>
    by_cases hk : kv.1 = k'
    · rw [List.filter_cons_of_neg (by simp [hk]), ih, vlookup]
      match hr : vlookup rest k with
      | some r => rfl
      | none =>
        show none = if kv.1 = k then some kv.2 else none
        rw [if_neg (fun hh => h (hh.symm.trans hk))]
    · rw [List.filter_cons_of_pos (by simp [hk]), vlookup, vlookup, ih]

theorem vlookup_filter_self {l : List (String × Nat)} {k : String} :
    vlookup (l.filter (fun kv => kv.1 ≠ k)) k = none := by
  induction l with
  | nil => rfl
  | cons kv rest ih =>
    by_cases hk : kv.1 = k
    · rw [List.filter_cons_of_neg (by simp [hk]), ih]
    · rw [List.filter_cons_of_pos (by simp [hk]), vlookup, ih, if_neg hk]

theorem projectPhrase_length {vocab : List (String × Nat)} {p : List String} {ids : List Nat}
    (h : projectPhrase vocab p = some ids) : ids.length = p.length := by
  induction p generalizing ids with
  | nil => rw [projectPhrase] at h; cases h; rfl
  | cons w ws ih =>
    rw [projectPhrase] at h
    match hw : vlookup vocab w, hws : projectPhrase vocab ws with
    | some i, some is =>
      rw [hw, hws] at h
      cases h
      simp [ih hws]
    | some i, none => rw [hw, hws] at h; cases h
    | none, _ => rw [hw] at h; cases h

theorem projectPhrase_mem {vocab : List (String × Nat)} {p : List String} {ids : List Nat}
    (h : projectPhrase vocab p = some ids) : ∀ i ∈ ids, i ∈ vocab.map Prod.snd := by
  induction p generalizing ids with
  | nil => rw [projectPhrase] at h; cases h; intro i hi; cases hi
  | cons w ws ih =>
    rw [projectPhrase] at h
    match hw : vlookup vocab w, hws : projectPhrase vocab ws with
    | some i, some is =>
      rw [hw, hws] at h
      cases h
      intro j hj
      rcases List.mem_cons.mp hj with rfl | hj
      · exact vlookup_mem hw
      · exact ih hws j hj
    | some i, none => rw [hw, hws] at h; cases h
    | none, _ => rw [hw] at h; cases h

theorem projectPhrase_none_of_oov {vocab : List (String × Nat)} {p : List String} {w : String}
    (hw : w ∈ p) (h : vlookup vocab w = none) : projectPhrase vocab p = none := by
  induction p with
  | nil => cases hw
  | cons w0 ws ih =>
    rw [projectPhrase]
    rcases List.mem_cons.mp hw with rfl | hw0
    · rw [h]
    · match hv : vlookup vocab w0 with
      | none => rfl
      | some i => rw [ih hw0]

theorem oovWords_mem {vocab : List (String × Nat)} {p : List String} {w : String}
    (hw : w ∈ p) (h : vlookup vocab w = none) : w ∈ oovWords vocab p := by
  unfold oovWords
  rw [List.mem_filter]
  exact ⟨hw, by simp [h]⟩

/-! ### Arc membership in the constructed graphs -/

theorem arcs_mem_addArc {f : VectorFst} {s : Nat} {a b : Arc}
    (h : a ∈ (f.addArc s b).arcsOf.flatten) : a ∈ f.arcsOf.flatten ∨ a = b := by
  unfold VectorFst.addArc at h
  rw [List.mem_flatten] at h
  obtain ⟨sub, hsub, ha⟩ := h
  rcases List.mem_or_eq_of_mem_set hsub with hmem | rfl
  · exact Or.inl (List.mem_flatten.mpr ⟨sub, hmem, ha⟩)
  · rcases List.mem_append.mp ha with hmem | hb
    · refine Or.inl (List.mem_flatten.mpr ⟨f.arcsOf.getD s [], ?_, hmem⟩)
      have hlt : s < f.arcsOf.length := by
        by_contra hge
        rw [getD_ge _ _ (Nat.le_of_not_lt hge)] at hmem
        cases hmem
      have heq : f.arcsOf.getD s [] = f.arcsOf[s] := by
        rw [List.getD_eq_getElem?_getD, List.getElem?_eq_getElem hlt]
        rfl
      rw [heq]
      exact List.getElem_mem hlt
    · exact Or.inr (by cases hb with | head => rfl | tail _ hh => cases hh)

theorem arcs_mem_addState {f : VectorFst} {a : Arc} :
    a ∈ ((f.addState).1).arcsOf.flatten ↔ a ∈ f.arcsOf.flatten := by
  unfold VectorFst.addState
  simp

theorem arcs_mem_addRest (ws : List Nat) : ∀ (f : VectorFst) (sp : Nat) (a : Arc),
    a ∈ (addRest (f, sp) ws).1.arcsOf.flatten →
    a ∈ f.arcsOf.flatten ∨ (a.ilabel ∈ ws ∧ a.olabel = a.ilabel ∧ a.weight = 0) := by
  induction ws with
  | nil => intro f sp a h; exact Or.inl h
  | cons w rest ih =>
    intro f sp a h
    rw [addRest_cons] at h
    rcases ih _ _ _ h with hmem | ⟨hil, hol, hwt⟩
    · rcases arcs_mem_addArc hmem with hmem2 | rfl
      · exact Or.inl (arcs_mem_addState.mp hmem2)
      · exact Or.inr ⟨List.mem_cons_self _ _, rfl, rfl⟩
    · exact Or.inr ⟨List.mem_cons_of_mem _ hil, hol, hwt⟩

theorem raw_arcs_labels_aux (vocab : List (String × Nat)) (wd pd : Rat)
    (phrases : List (List String)) : ∀ acc0 : GenResult,
    (∀ a ∈ acc0.g.arcsOf.flatten, a.ilabel ∈ vocab.map Prod.snd ∧ a.olabel = a.ilabel) →
    ∀ a ∈ (phrases.foldl (genStep vocab wd pd 0) acc0).g.arcsOf.flatten,
      a.ilabel ∈ vocab.map Prod.snd ∧ a.olabel = a.ilabel := by
  induction phrases with
  | nil => intro acc0 hbase; exact hbase
  | cons p ps ih =>
    intro acc0 hbase
    rw [List.foldl_cons]
    refine ih _ ?_
    intro a ha
    match hp : projectPhrase vocab p with
    | none =>
      rw [genStep_oov hp] at ha
      exact hbase a ha
    | some ids =>
      by_cases hne : ids = []
      · subst hne
        rw [genStep_nilIds hp] at ha
        exact hbase a ha
      · rw [genStep_accepted hp hne] at ha
        simp only [VectorFst.setFinal] at ha
        rcases arcs_mem_addArc ha with hmem | rfl
        · rcases arcs_mem_addState.mp hmem with hmem2
          rcases arcs_mem_addRest _ _ _ _ hmem2 with hold | ⟨hil, hol, _⟩
          · exact hbase a hold
          · exact ⟨projectPhrase_mem hp _ (List.dropLast_subset _ hil), hol⟩
        · exact ⟨projectPhrase_mem hp _ (List.getLast_mem hne), rfl⟩

theorem raw_arcs_labels (phrases : List (List String)) (vocab : List (String × Nat))
    (wd pd : Rat) :
    ∀ a ∈ (genInitialGraph phrases vocab wd pd).g.arcsOf.flatten,
      a.ilabel ∈ vocab.map Prod.snd ∧ a.olabel = a.ilabel := by
  unfold genInitialGraph
  refine raw_arcs_labels_aux vocab wd pd phrases _ ?_
  intro a ha
  simp [VectorFst.empty, VectorFst.addState, VectorFst.setStart] at ha

/-! ### Counting incoming arcs -/

theorem arcsIn_setFinal (f : VectorFst) (s : Nat) (w : Option Rat) (t : Nat) :
    arcsIn (f.setFinal s w) t = arcsIn f t := rfl

theorem arcsIn_addState (f : VectorFst) (t : Nat) :
    arcsIn (f.addState).1 t = arcsIn f t := by
  unfold arcsIn
  rw [numStates_addState, Finset.sum_range_succ]
  have h1 : arcsAt (f.addState).1 f.numStates = [] := by
    rw [arcsAt_addState]
    exact arcsAt_ge f (Nat.le_refl _)
  rw [h1]
  simp only [List.countP_nil, add_zero]
  exact Finset.sum_congr rfl (fun i _ => by rw [arcsAt_addState])

theorem arcsIn_addArc (f : VectorFst) {s : Nat} (a : Arc) (t : Nat) (h : s < f.numStates) :
    arcsIn (f.addArc s a) t = arcsIn f t + (if a.nextstate = t then 1 else 0) := by
  unfold arcsIn
  rw [numStates_addArc]
  have key : ∀ i ∈ Finset.range f.numStates,
      (arcsAt (f.addArc s a) i).countP (fun x => decide (x.nextstate = t)) =
      (arcsAt f i).countP (fun x => decide (x.nextstate = t)) +
        (if i = s then (if a.nextstate = t then 1 else 0) else 0) := by
    intro i _
    rcases eq_or_ne i s with rfl | hne
    · rw [arcsAt_addArc_self _ _ h, List.countP_append]
      simp [List.countP_cons]
    · rw [arcsAt_addArc_ne _ _ (fun hh => hne hh.symm), if_neg hne, add_zero]
  rw [Finset.sum_congr rfl key, Finset.sum_add_distrib,
    Finset.sum_ite_eq' (Finset.range f.numStates) s]
  rw [if_pos (Finset.mem_range.mpr h)]

theorem arcsIn_addRest (ws : List Nat) : ∀ (f : VectorFst) (sp : Nat), sp < f.numStates →
    ∀ t, arcsIn (addRest (f, sp) ws).1 t =
      arcsIn f t + (if f.numStates ≤ t ∧ t < f.numStates + ws.length then 1 else 0) := by
  induction ws with
  | nil =>
    intro f sp _ t
    simp [addRest]
  | cons w rest ih =>
    intro f sp hsp t
    rw [addRest_cons, ih _ _ (by simp only [numStates_addArc, numStates_addState]; omega),
      arcsIn_addArc _ _ _ (by rw [numStates_addState]; omega), arcsIn_addState]
    simp only [numStates_addArc, numStates_addState, List.length_cons]
    split_ifs <;> omega

/-! ### The phrase fold: graph component and diagnostics -/

theorem genInitialGraph_def (phrases : List (List String)) (vocab : List (String × Nat))
    (wd pd : Rat) :
    genInitialGraph phrases vocab wd pd =
      phrases.foldl (genStep vocab wd pd 0) ⟨(VectorFst.empty.addState).1.setStart 0, []⟩ := rfl

theorem initFst_eq : (VectorFst.empty.addState).1.setStart 0 =
    ⟨[[]], [none], some 0⟩ := rfl

theorem genStep_g_fun (vocab : List (String × Nat)) (wd pd : Rat) (s : Nat)
    (p : List String) (acc : GenResult) :
    (genStep vocab wd pd s acc p).g = (genStep vocab wd pd s ⟨acc.g, []⟩ p).g := by
  match hp : projectPhrase vocab p with
  | none => rw [genStep_oov hp, genStep_oov hp]
  | some ids =>
    by_cases hne : ids = []
    · subst hne
      rw [genStep_nilIds hp, genStep_nilIds hp]
    · rw [genStep_accepted hp hne, genStep_accepted hp hne]

theorem fold_g (vocab : List (String × Nat)) (wd pd : Rat) (l : List (List String)) :
    ∀ acc : GenResult,
    (l.foldl (genStep vocab wd pd 0) acc).g =
      (l.foldl (genStep vocab wd pd 0) ⟨acc.g, []⟩).g := by
  induction l with
  | nil => intro acc; rfl
  | cons p ps ih =>
    intro acc
    rw [List.foldl_cons, List.foldl_cons, ih, ih (genStep vocab wd pd 0 ⟨acc.g, []⟩ p),
      genStep_g_fun]

theorem genStep_diags_sub {vocab : List (String × Nat)} {wd pd : Rat} {s : Nat}
    {p : List String} (acc : GenResult) {d : List String × List String}
    (hd : d ∈ acc.diags) : d ∈ (genStep vocab wd pd s acc p).diags := by
  match hp : projectPhrase vocab p with
  | none =>
    rw [genStep_oov hp]
    exact List.mem_append_left _ hd
  | some ids =>
    by_cases hne : ids = []
    · subst hne
      rw [genStep_nilIds hp]
      exact hd
    · rw [genStep_accepted hp hne]
      exact hd

theorem fold_diags_sub (vocab : List (String × Nat)) (wd pd : Rat)
    (l : List (List String)) : ∀ (acc : GenResult) (d : List String × List String),
    d ∈ acc.diags → d ∈ (l.foldl (genStep vocab wd pd 0) acc).diags := by
  induction l with
  | nil => intro acc d hd; exact hd
  | cons p ps ih =>
    intro acc d hd
    rw [List.foldl_cons]
    exact ih _ _ (genStep_diags_sub acc hd)

theorem fold_g_filter (vocab : List (String × Nat)) (wd pd : Rat)
    (l : List (List String)) : ∀ acc : GenResult,
    (l.foldl (genStep vocab wd pd 0) acc).g =
      ((l.filter (fun p => (projectPhrase vocab p).isSome)).foldl
        (genStep vocab wd pd 0) acc).g := by
  induction l with
  | nil => intro acc; rfl
  | cons p ps ih =>
    intro acc
    match hp : projectPhrase vocab p with
    | none =>
      rw [List.filter_cons_of_neg (by simp [hp]), List.foldl_cons, ← ih,
        fold_g vocab wd pd ps (genStep vocab wd pd 0 acc p), genStep_oov hp,
        fold_g vocab wd pd ps acc]
    | some ids =>
      rw [List.filter_cons_of_pos (by simp [hp]), List.foldl_cons, List.foldl_cons, ih]

theorem fold_g_skip_oov (vocab : List (String × Nat)) (wd pd : Rat)
    (pre post : List (List String)) (p : List String)
    (hp : projectPhrase vocab p = none) :
    (genInitialGraph (pre ++ p :: post) vocab wd pd).g =
      (genInitialGraph (pre ++ post) vocab wd pd).g := by
  rw [genInitialGraph_def, genInitialGraph_def, List.foldl_append, List.foldl_append,
    List.foldl_cons,
    fold_g vocab wd pd post (genStep vocab wd pd 0 _ p),
    fold_g vocab wd pd post (List.foldl (genStep vocab wd pd 0) _ pre),
    genStep_oov hp]

theorem diag_mem_of_oov (vocab : List (String × Nat)) (wd pd : Rat)
    (pre post : List (List String)) (p : List String)
    (hp : projectPhrase vocab p = none) :
    (oovWords vocab p, p) ∈ (genInitialGraph (pre ++ p :: post) vocab wd pd).diags := by
  rw [genInitialGraph_def, List.foldl_append, List.foldl_cons]
  refine fold_diags_sub _ _ _ _ _ _ ?_
  rw [genStep_oov hp]
  exact List.mem_append_right _ (List.mem_singleton.mpr rfl)

theorem fold_g_dropped (vocab : List (String × Nat)) (wd pd : Rat)
    (l : List (List String))
    (hdrop : ∀ p ∈ l, projectPhrase vocab p = none ∨ p = []) :
    ∀ acc : GenResult, (l.foldl (genStep vocab wd pd 0) acc).g = acc.g := by
  induction l with
  | nil => intro acc; rfl
  | cons p ps ih =>
    intro acc
    rw [List.foldl_cons]
    have hstep : (genStep vocab wd pd 0 acc p).g = acc.g := by
      rcases hdrop p (List.mem_cons_self _ _) with h | rfl
      · rw [genStep_oov h]
      · rw [genStep_nilIds (show projectPhrase vocab [] = some [] from rfl)]
    rw [ih (fun q hq => hdrop q (List.mem_cons_of_mem _ hq)), hstep]

/-! ### Characterization of the canonicalization rewrite -/

theorem canonStep_skip (s0 : Nat) (f : VectorFst) : canonStep s0 f s0 = f := by
  unfold canonStep
  rw [if_neg (by simp)]

theorem canonStep_start (s0 : Nat) (f : VectorFst) (s : Nat) :
    (canonStep s0 f s).start = f.start := by
  unfold canonStep
  split
  · dsimp only
    split <;> rfl
  · rfl

theorem canonStep_numStates (s0 : Nat) (f : VectorFst) (s : Nat) :
    (canonStep s0 f s).numStates = f.numStates := by
  unfold canonStep
  split
  · dsimp only
    split
    · rw [numStates_setFinal, numStates_addArc]
    · rw [numStates_addArc]
  · rfl

theorem canonStep_finalLen (s0 : Nat) (f : VectorFst) (s : Nat) :
    (canonStep s0 f s).finalOf.length = f.finalOf.length := by
  unfold canonStep
  split
  · dsimp only
    split
    · rw [finalLen_setFinal, finalLen_addArc]
    · rw [finalLen_addArc]
  · rfl

theorem canonStep_arcsAt_ne (s0 : Nat) (f : VectorFst) {s t : Nat} (h : t ≠ s) :
    arcsAt (canonStep s0 f s) t = arcsAt f t := by
  unfold canonStep
  split
  · dsimp only
    split
    · rw [arcsAt_setFinal, arcsAt_addArc_ne _ _ (fun hh => h hh.symm)]
    · rw [arcsAt_addArc_ne _ _ (fun hh => h hh.symm)]
  · rfl

theorem canonStep_arcsAt_self (s0 : Nat) (f : VectorFst) {s : Nat} (hne : s ≠ s0)
    (hlt : s < f.numStates) :
    arcsAt (canonStep s0 f s) s = arcsAt f s ++ [⟨0, 0, 0, s0⟩] := by
  unfold canonStep
  rw [if_pos hne]
  dsimp only
  split
  · rw [arcsAt_setFinal, arcsAt_addArc_self _ _ hlt]
  · rw [arcsAt_addArc_self _ _ hlt]

theorem canonStep_finalAt_ne (s0 : Nat) (f : VectorFst) {s t : Nat} (h : t ≠ s) :
    finalAt (canonStep s0 f s) t = finalAt f t := by
  unfold canonStep
  split
  · dsimp only
    split
    · rw [finalAt_setFinal_ne _ _ (fun hh => h hh.symm), finalAt_addArc]
    · rw [finalAt_addArc]
  · rfl

theorem canonStep_finalAt_self (s0 : Nat) (f : VectorFst) {s : Nat} (hne : s ≠ s0) :
    finalAt (canonStep s0 f s) s = none := by
  unfold canonStep
  rw [if_pos hne]
  dsimp only
  split
  next h2 =>
    have hlen : s < f.finalOf.length := by
      by_contra hge
      rw [finalAt_addArc] at h2
      unfold finalAt at h2
      rw [getD_ge _ _ (Nat.le_of_not_lt hge)] at h2
      simp at h2
    exact finalAt_setFinal_self _ _ (by rw [finalLen_addArc]; exact hlen)
  next h2 =>
    rw [finalAt_addArc]
    rw [finalAt_addArc] at h2
    simpa using h2

theorem canonFold_start (s0 : Nat) (l : List Nat) : ∀ f : VectorFst,
    (l.foldl (canonStep s0) f).start = f.start := by
  induction l with
  | nil => intro f; rfl
  | cons s rest ih =>
    intro f
    rw [List.foldl_cons, ih, canonStep_start]

theorem canonFold_numStates (s0 : Nat) (l : List Nat) : ∀ f : VectorFst,
    (l.foldl (canonStep s0) f).numStates = f.numStates := by
  induction l with
  | nil => intro f; rfl
  | cons s rest ih =>
    intro f
    rw [List.foldl_cons, ih, canonStep_numStates]

theorem canonFold_finalLen (s0 : Nat) (l : List Nat) : ∀ f : VectorFst,
    (l.foldl (canonStep s0) f).finalOf.length = f.finalOf.length := by
  induction l with
  | nil => intro f; rfl
  | cons s rest ih =>
    intro f
    rw [List.foldl_cons, ih, canonStep_finalLen]

theorem canonFold_arcsAt_notmem (s0 : Nat) (l : List Nat) : ∀ (f : VectorFst) (t : Nat),
    t ∉ l → arcsAt (l.foldl (canonStep s0) f) t = arcsAt f t := by
  induction l with
  | nil => intro f t _; rfl
  | cons s rest ih =>
    intro f t ht
    rw [List.foldl_cons, ih _ _ (fun hh => ht (List.mem_cons_of_mem _ hh)),
      canonStep_arcsAt_ne _ _ (fun hh => ht (by rw [hh]; exact List.mem_cons_self _ _))]

theorem canonFold_arcsAt_s0 (s0 : Nat) (l : List Nat) : ∀ f : VectorFst,
    arcsAt (l.foldl (canonStep s0) f) s0 = arcsAt f s0 := by
  induction l with
  | nil => intro f; rfl
  | cons s rest ih =>
    intro f
    rw [List.foldl_cons, ih]
    rcases eq_or_ne s s0 with rfl | hne
    · rw [canonStep_skip]
    · rw [canonStep_arcsAt_ne _ _ (fun hh => hne hh.symm)]

theorem canonFold_arcsAt_mem (s0 : Nat) (l : List Nat) : ∀ (f : VectorFst) (t : Nat),
    l.Nodup → t ∈ l → t ≠ s0 → t < f.numStates →
    arcsAt (l.foldl (canonStep s0) f) t = arcsAt f t ++ [⟨0, 0, 0, s0⟩] := by
  induction l with
  | nil => intro f t _ ht; cases ht
  | cons s rest ih =>
    intro f t hnd ht hne hlt
    rw [List.nodup_cons] at hnd
    rw [List.foldl_cons]
    rcases List.mem_cons.mp ht with rfl | hmem
    · rw [canonFold_arcsAt_notmem _ _ _ _ hnd.1, canonStep_arcsAt_self _ _ hne hlt]
    · have htne : t ≠ s := fun hh => hnd.1 (hh ▸ hmem)
      rw [ih _ _ hnd.2 hmem hne (by rw [canonStep_numStates]; exact hlt),
        canonStep_arcsAt_ne _ _ htne]

theorem canonFold_finalAt_notmem (s0 : Nat) (l : List Nat) : ∀ (f : VectorFst) (t : Nat),
    t ∉ l → finalAt (l.foldl (canonStep s0) f) t = finalAt f t := by
  induction l with
  | nil => intro f t _; rfl
  | cons s rest ih =>
    intro f t ht
    rw [List.foldl_cons, ih _ _ (fun hh => ht (List.mem_cons_of_mem _ hh)),
      canonStep_finalAt_ne _ _ (fun hh => ht (by rw [hh]; exact List.mem_cons_self _ _))]

theorem canonFold_finalAt_mem (s0 : Nat) (l : List Nat) : ∀ (f : VectorFst) (t : Nat),
    t ∈ l → t ≠ s0 → finalAt (l.foldl (canonStep s0) f) t = none := by
  induction l with
  | nil => intro f t ht; cases ht
  | cons s rest ih =>
    intro f t ht hne
    rw [List.foldl_cons]
    by_cases hmem : t ∈ rest
    · exact ih _ _ hmem hne
    · rcases List.mem_cons.mp ht with rfl | hmem2
      · rw [canonFold_finalAt_notmem _ _ _ _ hmem, canonStep_finalAt_self _ _ hne]
      · exact absurd hmem2 hmem

theorem canonicalize_eq (f : VectorFst) (rho : Nat) {s0 : Nat} (hstart : f.start = some s0) :
    canonicalize f rho = some ((((List.range f.numStates).foldl (canonStep s0) f).setFinal s0
      (some 0)).addArc s0 ⟨rho, rho, 0, s0⟩) := by
  unfold canonicalize
  rw [hstart]

theorem arcsAt_subset_flatten (f : VectorFst) (s : Nat) :
    ∀ a ∈ arcsAt f s, a ∈ f.arcsOf.flatten := by
  intro a ha
  unfold arcsAt at ha
  by_cases h : s < f.arcsOf.length
  · have heq : f.arcsOf.getD s [] = f.arcsOf[s] := by
      rw [List.getD_eq_getElem?_getD, List.getElem?_eq_getElem h]
      rfl
    rw [heq] at ha
    exact List.mem_flatten.mpr ⟨_, List.getElem_mem h, ha⟩
  · rw [getD_ge _ _ (Nat.le_of_not_lt h)] at ha
    cases ha

/-! ### Unfolding builder construction -/

theorem builderInit_malformed {lines : List String} (h : loadVocabTable lines = none) :
    builderInit lines = .error .malformedTable := by
  simp [builderInit, h]

theorem builderInit_noEps {lines : List String} {tbl : List (String × Nat)}
    (hload : loadVocabTable lines = some tbl) (heps : vlookup tbl "<eps>" = none) :
    builderInit lines = .error .missingEpsilon := by
  simp [builderInit, hload, heps]

theorem builderInit_noRho {lines : List String} {tbl : List (String × Nat)} {e : Nat}
    (hload : loadVocabTable lines = some tbl) (heps : vlookup tbl "<eps>" = some e)
    (hrho : vlookup (tbl.filter (fun kv => kv.1 ≠ "<eps>")) "#0" = none) :
    builderInit lines = .error .missingWildcard := by
  have h2 := hrho
  simp only [ne_eq, decide_not] at h2
  simp [builderInit, hload, heps, h2]

theorem builderInit_ok_shape {lines : List String} {tbl : List (String × Nat)} {e rho : Nat}
    (hload : loadVocabTable lines = some tbl) (heps : vlookup tbl "<eps>" = some e)
    (hrho : vlookup (tbl.filter (fun kv => kv.1 ≠ "<eps>")) "#0" = some rho) :
    builderInit lines = .ok
      ⟨(tbl.filter (fun kv => kv.1 ≠ "<eps>")).filter (fun kv => kv.1 ≠ "#0"), rho⟩ := by
  have h2 := hrho
  simp only [ne_eq, decide_not] at h2
  simp [builderInit, hload, heps, h2]

theorem mem_snd_ne {vocab : List (String × Nat)} {x v : Nat}
    (hvalid : ∀ kv ∈ vocab, kv.2 ≠ v) (hx : x ∈ vocab.map Prod.snd) : x ≠ v := by
  obtain ⟨kv, hkv, rfl⟩ := List.mem_map.mp hx
  exact hvalid kv hkv

theorem det_labels (phrases : List (List String)) (vocab : List (String × Nat))
    (wd pd : Rat) (g : VectorFst)
    (hlab : ∀ a ∈ g.arcsOf.flatten,
      ∃ c ∈ (genInitialGraph phrases vocab wd pd).g.arcsOf.flatten,
        (a.ilabel = c.ilabel ∨ a.ilabel = c.olabel) ∧
        (a.olabel = c.ilabel ∨ a.olabel = c.olabel)) :
    ∀ a ∈ g.arcsOf.flatten,
      a.ilabel ∈ vocab.map Prod.snd ∧ a.olabel ∈ vocab.map Prod.snd := by
  intro a ha
  obtain ⟨c, hc, h1, h2⟩ := hlab a ha
  obtain ⟨hcl, hceq⟩ := raw_arcs_labels phrases vocab wd pd c hc
  have hco : c.olabel ∈ vocab.map Prod.snd := by
    rw [hceq]
    exact hcl
  refine ⟨?_, ?_⟩
  · rcases h1 with h | h <;> rw [h]
    · exact hcl
    · exact hco
  · rcases h2 with h | h <;> rw [h]
    · exact hcl
    · exact hco

/-! ### The raw-graph structural invariant -/

theorem arcs_mem_addRest2 (ws : List Nat) : ∀ (f : VectorFst) (sp : Nat) (a : Arc),
    a ∈ (addRest (f, sp) ws).1.arcsOf.flatten →
    a ∈ f.arcsOf.flatten ∨
      (f.numStates ≤ a.nextstate ∧ a.nextstate < f.numStates + ws.length ∧
        a.weight = 0) := by
  induction ws with
  | nil => intro f sp a h; exact Or.inl h
  | cons w rest ih =>
    intro f sp a h
    rw [addRest_cons] at h
    rcases ih _ _ _ h with hmem | ⟨h1, h2, h3⟩
    · rcases arcs_mem_addArc hmem with hmem2 | rfl
      · exact Or.inl (arcs_mem_addState.mp hmem2)
      · refine Or.inr ⟨Nat.le_refl _, ?_, rfl⟩
        simp only [List.length_cons]
        omega
    · rw [numStates_addArc, numStates_addState] at h1 h2
      refine Or.inr ⟨by omega, ?_, h3⟩
      simp only [List.length_cons]
      omega

theorem genStep_inv (vocab : List (String × Nat)) (wd pd : Rat) (acc : GenResult)
    (p : List String) (hinv : GenInv acc.g) :
    GenInv (genStep vocab wd pd 0 acc p).g ∧
    (genStep vocab wd pd 0 acc p).g.numStates =
      acc.g.numStates + (if (projectPhrase vocab p).isSome then p.length else 0) := by
  obtain ⟨hstart, hn1, hflen, htgt, hin, hwt⟩ := hinv
  match hp : projectPhrase vocab p with
  | none =>
    rw [genStep_oov hp]
    exact ⟨⟨hstart, hn1, hflen, htgt, hin, hwt⟩, by simp⟩
  | some ids =>
    by_cases hne : ids = []
    · subst hne
      rw [genStep_nilIds hp]
      have hp0 : p.length = 0 := by
        rw [← projectPhrase_length hp]
        rfl
      exact ⟨⟨hstart, hn1, hflen, htgt, hin, hwt⟩, by simp [hp0]⟩
    · rw [genStep_accepted hp hne]
      dsimp only
      have hL : 1 ≤ ids.length := List.length_pos.mpr hne
      have hdll : ids.dropLast.length = ids.length - 1 := List.length_dropLast ids
      have hplen : p.length = ids.length := (projectPhrase_length hp).symm
      have hf1n : (addRest (acc.g, 0) ids.dropLast).1.numStates =
          acc.g.numStates + (ids.length - 1) := by
        rw [addRest_numStates, hdll]
      have hsp_lt : (addRest (acc.g, 0) ids.dropLast).2 <
          (addRest (acc.g, 0) ids.dropLast).1.numStates := by
        rcases eq_or_ne ids.dropLast [] with hdl | hdl
        · rw [hdl]
          exact hn1
        · rw [addRest_snd _ hdl, addRest_numStates]
          have := List.length_pos.mpr hdl
          omega
      -- the new graph, piecewise
      have hnum : ((((addRest (acc.g, 0) ids.dropLast).1.addState).1.addArc
            (addRest (acc.g, 0) ids.dropLast).2
            ⟨ids.getLast hne, ids.getLast hne, phraseWeight ids wd pd,
              (addRest (acc.g, 0) ids.dropLast).1.numStates⟩).setFinal
          (addRest (acc.g, 0) ids.dropLast).1.numStates (some 0)).numStates =
          acc.g.numStates + ids.length := by
        rw [numStates_setFinal, numStates_addArc, numStates_addState, hf1n]
        omega
      have hsp2 : (addRest (acc.g, 0) ids.dropLast).2 <
          ((addRest (acc.g, 0) ids.dropLast).1.addState).1.numStates := by
        rw [numStates_addState]
        omega
      have hfinlast : finalAt ((((addRest (acc.g, 0) ids.dropLast).1.addState).1.addArc
            (addRest (acc.g, 0) ids.dropLast).2
            ⟨ids.getLast hne, ids.getLast hne, phraseWeight ids wd pd,
              (addRest (acc.g, 0) ids.dropLast).1.numStates⟩).setFinal
          (addRest (acc.g, 0) ids.dropLast).1.numStates (some 0))
          ((addRest (acc.g, 0) ids.dropLast).1.numStates) = some 0 := by
        refine finalAt_setFinal_self _ _ ?_
        rw [finalLen_addArc, finalLen_addState, addRest_finalLen, hflen, hf1n]
        omega
      refine ⟨⟨?_, ?_, ?_, ?_, ?_, ?_⟩, ?_⟩
      · rw [start_setFinal, start_addArc, start_addState, addRest_start]
        exact hstart
      · rw [hnum]
        omega
      · rw [hnum, finalLen_setFinal, finalLen_addArc, finalLen_addState, addRest_finalLen,
          hflen]
        omega
      · rw [hnum]
        intro a ha
        rcases arcs_mem_addArc ha with hmem | rfl
        · rcases arcs_mem_addRest2 _ _ _ _ (arcs_mem_addState.mp hmem) with hold | ⟨hb1, hb2, _⟩
          · have htn := htgt a hold
            exact ⟨htn.1, by omega⟩
          · rw [hdll] at hb2
            constructor
            · omega
            · omega
        · dsimp only
          rw [hf1n]
          constructor
          · omega
          · omega
      · intro t
        rw [hnum, arcsIn_setFinal, arcsIn_addArc _ _ _ hsp2, arcsIn_addState,
          arcsIn_addRest _ _ _ hn1 t, hin t]
        dsimp only
        rw [hf1n, hdll]
        split_ifs <;> omega
      · intro a ha hfin
        rcases arcs_mem_addArc ha with hmem | rfl
        · rcases arcs_mem_addRest2 _ _ _ _ (arcs_mem_addState.mp hmem) with hold | ⟨_, _, hb3⟩
          · refine hwt a hold ?_
            have htn := htgt a hold
            have h1 : a.nextstate ≠ (addRest (acc.g, 0) ids.dropLast).1.numStates := by
              rw [hf1n]
              omega
            rw [finalAt_setFinal_ne _ _ (fun hh => h1 hh.symm), finalAt_addArc,
              finalAt_addState, addRest_finalAt] at hfin
            exact hfin
          · exact hb3
        · exfalso
          dsimp only at hfin
          rw [hfinlast] at hfin
          cases hfin
      · rw [hnum]
        simp [hplen]

theorem genfold_inv (vocab : List (String × Nat)) (wd pd : Rat)
    (l : List (List String)) : ∀ acc : GenResult, GenInv acc.g →
    GenInv (l.foldl (genStep vocab wd pd 0) acc).g ∧
    (l.foldl (genStep vocab wd pd 0) acc).g.numStates =
      acc.g.numStates +
        ((l.filter (fun p => (projectPhrase vocab p).isSome)).map List.length).sum := by
  induction l with
  | nil =>
    intro acc h
    exact ⟨h, by simp⟩
  | cons p ps ih =>
    intro acc h
    obtain ⟨hstep, hstepn⟩ := genStep_inv vocab wd pd acc p h
    obtain ⟨hfold, hfoldn⟩ := ih _ hstep
    rw [List.foldl_cons]
    refine ⟨hfold, ?_⟩
    rw [hfoldn, hstepn]
    by_cases hp : (projectPhrase vocab p).isSome
    · rw [if_pos hp, List.filter_cons_of_pos (by simpa using hp), List.map_cons,
        List.sum_cons]
      omega
    · rw [if_neg hp, List.filter_cons_of_neg (by simpa using hp)]
      omega

/-! ### The single-phrase chain graph -/

theorem getD_lt {α : Type} (l : List α) (d : α) {i : Nat} (h : i < l.length) :
    l.getD i d = l[i] := by
  rw [List.getD_eq_getElem?_getD, List.getElem?_eq_getElem h]
  rfl

theorem dropLast_getD (l : List Nat) (d : Nat) {k : Nat} (h : k + 1 < l.length) :
    l.dropLast.getD k d = l.getD k d := by
  have h2 : k < l.dropLast.length := by
    rw [List.length_dropLast]
    omega
  rw [getD_lt _ _ h2, getD_lt _ _ (show k < l.length by omega)]
  exact List.getElem_dropLast l k h2

theorem getLast_eq_getD (l : List Nat) (d : Nat) (h : l ≠ []) :
    l.getLast h = l.getD (l.length - 1) d := by
  have hl := List.length_pos.mpr h
  rw [getD_lt _ _ (show l.length - 1 < l.length by omega)]
  exact List.getLast_eq_getElem l h

theorem singleRaw (vocab : List (String × Nat)) (wd pd : Rat) (p : List String)
    (ids : List Nat) (hp : projectPhrase vocab p = some ids) (hne : ids ≠ []) :
    (genInitialGraph [p] vocab wd pd).g.numStates = ids.length + 1 ∧
    (genInitialGraph [p] vocab wd pd).g.start = some 0 ∧
    (genInitialGraph [p] vocab wd pd).g.finalOf.length = ids.length + 1 ∧
    finalAt (genInitialGraph [p] vocab wd pd).g ids.length = some 0 ∧
    (∀ k, k < ids.length →
      arcsAt (genInitialGraph [p] vocab wd pd).g k =
        [chainArcAt ids (phraseWeight ids wd pd) k]) ∧
    (∀ k, ids.length ≤ k → arcsAt (genInitialGraph [p] vocab wd pd).g k = []) := by
  have hstep : genInitialGraph [p] vocab wd pd =
      genStep vocab wd pd 0 ⟨(VectorFst.empty.addState).1.setStart 0, []⟩ p := rfl
  rw [hstep, genStep_accepted hp hne]
  dsimp only
  have hL : 1 ≤ ids.length := List.length_pos.mpr hne
  have hdll : ids.dropLast.length = ids.length - 1 := List.length_dropLast ids
  have hc : ((VectorFst.empty.addState).1.setStart 0).numStates = 1 := rfl
  have hcf : ((VectorFst.empty.addState).1.setStart 0).finalOf.length = 1 := rfl
  have hf1n : (addRest ((VectorFst.empty.addState).1.setStart 0, 0) ids.dropLast).1.numStates
      = ids.length := by
    rw [addRest_numStates, hc, hdll]
    omega
  have hsp : (addRest ((VectorFst.empty.addState).1.setStart 0, 0) ids.dropLast).2 =
      ids.length - 1 := by
    rcases eq_or_ne ids.dropLast [] with hdl | hdl
    · rw [hdl]
      show 0 = ids.length - 1
      rw [← hdll, hdl]
      rfl
    · rw [addRest_snd _ hdl, hc, hdll]
      omega
  refine ⟨?_, ?_, ?_, ?_, ?_, ?_⟩
  · rw [numStates_setFinal, numStates_addArc, numStates_addState, hf1n]
  · rw [start_setFinal, start_addArc, start_addState, addRest_start]
    rfl
  · rw [finalLen_setFinal, finalLen_addArc, finalLen_addState, addRest_finalLen, hcf, hdll]
    omega
  · rw [hf1n]
    refine finalAt_setFinal_self _ _ ?_
    rw [finalLen_addArc, finalLen_addState, addRest_finalLen, hcf, hdll]
    omega
  · intro k hk
    rw [arcsAt_setFinal]
    by_cases hkl : k + 1 = ids.length
    · have hk1 : k = ids.length - 1 := by omega
      subst hk1
      rw [show (addRest ((VectorFst.empty.addState).1.setStart 0, 0) ids.dropLast).2 =
          ids.length - 1 from hsp] at *
      rw [arcsAt_addArc_self _ _ (by rw [numStates_addState, hf1n]; omega)]
      rw [arcsAt_addState]
      have hempty : arcsAt
          (addRest ((VectorFst.empty.addState).1.setStart 0, 0) ids.dropLast).1
          (ids.length - 1) = [] := by
        rcases eq_or_ne ids.dropLast [] with hdl | hdl
        · rw [hdl]
          rw [show ids.length - 1 = 0 from by rw [← hdll, hdl]; rfl]
          rfl
        · have hend := addRest_arcsAt_end ids.dropLast hdl
            ((VectorFst.empty.addState).1.setStart 0) 0 (by rw [hc]; omega)
          rw [hc, hdll, show 1 + (ids.length - 1) - 1 = ids.length - 1 from by omega] at hend
          exact hend
      rw [hempty]
      simp only [List.nil_append]
      rw [getLast_eq_getD ids 0 hne, hf1n]
      unfold chainArcAt
      rw [show ids.length - 1 + 1 = ids.length from by omega, if_pos rfl]
    · have hkk : k + 1 < ids.length := by omega
      rw [arcsAt_addArc_ne _ _ (by rw [hsp]; omega)]
      rw [arcsAt_addState]
      by_cases hk0 : k = 0
      · subst hk0
        match hdl : ids.dropLast with
        | [] =>
          exfalso
          rw [hdl] at hdll
          simp at hdll
          omega
        | w :: rest =>
          rw [addRest_arcsAt_sp w rest _ (by rw [hc]; omega), hc]
          have hz : arcsAt ((VectorFst.empty.addState).1.setStart 0) 0 = [] := rfl
          rw [hz]
          simp only [List.nil_append]
          have hw : w = ids.getD 0 0 := by
            rw [← dropLast_getD ids 0 (by omega : 0 + 1 < ids.length), hdl]
            rfl
          unfold chainArcAt
          rw [← hw, if_neg (by omega : ¬(0 + 1 = ids.length))]
      · have hfr := addRest_arcsAt_fresh ids.dropLast
          ((VectorFst.empty.addState).1.setStart 0) 0 (by rw [hc]; omega) (k - 1)
          (by rw [hdll]; omega)
        rw [hc, show 1 + (k - 1) = k from by omega,
          show k - 1 + 1 = k from by omega, dropLast_getD ids 0 hkk] at hfr
        rw [hfr]
        unfold chainArcAt
        rw [if_neg (by omega : ¬(k + 1 = ids.length))]
  · intro k hk
    rw [arcsAt_setFinal]
    rw [arcsAt_addArc_ne _ _ (by rw [hsp]; omega)]
    rw [arcsAt_addState]
    refine arcsAt_ge _ ?_
    rw [hf1n]
    exact hk

theorem singleCanon (vocab : List (String × Nat)) (rho : Nat) (wd pd : Rat)
    (p : List String) (ids : List Nat)
    (hp : projectPhrase vocab p = some ids) (hne : ids ≠ []) :
    ∃ G, detIdGraph vocab rho [p] wd pd = some G ∧
      G.start = some 0 ∧
      finalAt G 0 = some 0 ∧
      arcsAt G 0 = [chainArcAt ids (phraseWeight ids wd pd) 0, ⟨rho, rho, 0, 0⟩] ∧
      (∀ k, 1 ≤ k → k < ids.length →
        arcsAt G k = [chainArcAt ids (phraseWeight ids wd pd) k, ⟨0, 0, 0, 0⟩]) ∧
      arcsAt G ids.length = [⟨0, 0, 0, 0⟩] := by
  obtain ⟨hnum, hstart, hflen, hfinL, harc, harcge⟩ := singleRaw vocab wd pd p ids hp hne
  have hL : 1 ≤ ids.length := List.length_pos.mpr hne
  refine ⟨_, canonicalize_eq _ rho hstart, ?_, ?_, ?_, ?_, ?_⟩
  · rw [start_addArc, start_setFinal, canonFold_start]
    exact hstart
  · rw [finalAt_addArc]
    refine finalAt_setFinal_self _ _ ?_
    rw [canonFold_finalLen, hflen]
    omega
  · rw [arcsAt_addArc_self _ _
      (by rw [numStates_setFinal, canonFold_numStates, hnum]; omega),
      arcsAt_setFinal, canonFold_arcsAt_s0, harc 0 (by omega)]
    rfl
  · intro k h1 h2
    have hmem : k ∈ List.range (genInitialGraph [p] vocab wd pd).g.numStates :=
      List.mem_range.mpr (by rw [hnum]; omega)
    have hlt : k < (genInitialGraph [p] vocab wd pd).g.numStates := by
      rw [hnum]
      omega
    rw [arcsAt_addArc_ne _ _ (by omega), arcsAt_setFinal,
      canonFold_arcsAt_mem 0 _ _ _ (List.nodup_range _) hmem (by omega) hlt, harc k h2]
    rfl
  · have hmem : ids.length ∈ List.range (genInitialGraph [p] vocab wd pd).g.numStates :=
      List.mem_range.mpr (by rw [hnum]; omega)
    have hlt : ids.length < (genInitialGraph [p] vocab wd pd).g.numStates := by
      rw [hnum]
      omega
    rw [arcsAt_addArc_ne _ _ (by omega), arcsAt_setFinal,
      canonFold_arcsAt_mem 0 _ _ _ (List.nodup_range _) hmem (by omega) hlt,
      harcge ids.length (Nat.le_refl _)]
    rfl

theorem tailArcs_frFrom (ids : List Nat) (W : Rat) (rho : Nat) (G : VectorFst)
    (hrho0 : rho ≠ 0)
    (hidrho : ∀ i ∈ ids, i ≠ rho)
    (harck : ∀ k, 1 ≤ k → k < ids.length →
      arcsAt G k = [chainArcAt ids W k, ⟨0, 0, 0, 0⟩])
    (harcL : arcsAt G ids.length = [⟨0, 0, 0, 0⟩]) :
    ∀ (m k : Nat), 1 ≤ k → k + m ≤ ids.length →
      frFrom G rho 0 k (tailArcs ids W k m) = true := by
  intro m
  induction m with
  | zero =>
    intro k h1 h2
    have hmem : (⟨0, 0, 0, 0⟩ : Arc) ∈ arcsAt G k := by
      rcases eq_or_ne k ids.length with rfl | hk
      · rw [harcL]
        exact List.mem_singleton.mpr rfl
      · rw [harck k h1 (by omega)]
        exact List.mem_cons_of_mem _ (List.mem_singleton.mpr rfl)
    show frFrom G rho 0 k [⟨0, 0, 0, 0⟩] = true
    simp [frFrom, hmem, Ne.symm hrho0]
  | succ m ih =>
    intro k h1 h2
    have hk : k < ids.length := by omega
    have hmem : chainArcAt ids W k ∈ arcsAt G k := by
      rw [harck k h1 hk]
      exact List.mem_cons_self _ _
    have hlbl : (chainArcAt ids W k).ilabel ≠ rho := by
      show ids.getD k 0 ≠ rho
      refine hidrho _ ?_
      rw [getD_lt _ _ hk]
      exact List.getElem_mem hk
    have hnext : (chainArcAt ids W k).nextstate = k + 1 := rfl
    have hih := ih (k + 1) (by omega) (by omega)
    show frFrom G rho 0 k (chainArcAt ids W k :: tailArcs ids W (k + 1) m) = true
    simp [frFrom, hmem, hlbl, hnext, hih]

theorem frFrom_tailArcs (ids : List Nat) (W : Rat) (rho : Nat) (G : VectorFst)
    (harck : ∀ k, 1 ≤ k → k < ids.length →
      arcsAt G k = [chainArcAt ids W k, ⟨0, 0, 0, 0⟩])
    (harcL : arcsAt G ids.length = [⟨0, 0, 0, 0⟩]) :
    ∀ (pa : List Arc) (k : Nat), 1 ≤ k → k ≤ ids.length →
      frFrom G rho 0 k pa = true → ∃ m, k + m ≤ ids.length ∧ pa = tailArcs ids W k m := by
  intro pa
  induction pa with
  | nil =>
    intro k _ _ h
    simp [frFrom] at h
  | cons a rest ih =>
    intro k h1 h2 h
    simp only [frFrom, Bool.and_eq_true, decide_eq_true_eq] at h
    obtain ⟨⟨hmem, hlbl⟩, hrest⟩ := h
    rcases eq_or_ne k ids.length with rfl | hk
    · rw [harcL] at hmem
      have ha := List.mem_singleton.mp hmem
      subst ha
      have hrest2 : rest = [] := by simpa using hrest
      subst hrest2
      exact ⟨0, by omega, rfl⟩
    · have hkL : k < ids.length := by omega
      rw [harck k h1 hkL] at hmem
      rcases List.mem_cons.mp hmem with rfl | hmem2
      · have hnext : (chainArcAt ids W k).nextstate = k + 1 := rfl
        rw [hnext, if_neg (by omega)] at hrest
        obtain ⟨m, hm1, hm2⟩ := ih (k + 1) (by omega) (by omega) hrest
        refine ⟨m + 1, by omega, ?_⟩
        rw [show tailArcs ids W k (m + 1) = chainArcAt ids W k :: tailArcs ids W (k + 1) m
          from rfl, hm2]
      · have ha := List.mem_singleton.mp hmem2
        subst ha
        have hrest2 : rest = [] := by simpa using hrest
        subst hrest2
        exact ⟨0, by omega, rfl⟩

theorem frPath_tail (ids : List Nat) (W : Rat) (rho : Nat) (G : VectorFst)
    (hrho0 : rho ≠ 0) (hne : ids ≠ [])
    (hidrho : ∀ i ∈ ids, i ≠ rho)
    (hstart : G.start = some 0) (hfin0 : finalAt G 0 = some 0)
    (harc0 : arcsAt G 0 = [chainArcAt ids W 0, ⟨rho, rho, 0, 0⟩])
    (harck : ∀ k, 1 ≤ k → k < ids.length →
      arcsAt G k = [chainArcAt ids W k, ⟨0, 0, 0, 0⟩])
    (harcL : arcsAt G ids.length = [⟨0, 0, 0, 0⟩]) :
    ∀ pa, frPath G rho pa = true ↔
      ∃ m, m + 1 ≤ ids.length ∧ pa = tailArcs ids W 0 (m + 1) := by
  have hL : 1 ≤ ids.length := List.length_pos.mpr hne
  intro pa
  constructor
  · intro h
    simp only [frPath, hstart, hfin0, Option.isSome_some, Bool.true_and] at h
    cases pa with
    | nil => simp [frFrom] at h
    | cons a rest =>
      simp only [frFrom, Bool.and_eq_true, decide_eq_true_eq] at h
      obtain ⟨⟨hmem, hlbl⟩, hrest⟩ := h
      rw [harc0] at hmem
      rcases List.mem_cons.mp hmem with rfl | hmem2
      · have hnext : (chainArcAt ids W 0).nextstate = 1 := rfl
        rw [hnext, if_neg (by omega)] at hrest
        obtain ⟨m, hm1, hm2⟩ := frFrom_tailArcs ids W rho G harck harcL rest 1
          (Nat.le_refl _) hL hrest
        refine ⟨m, by omega, ?_⟩
        rw [show tailArcs ids W 0 (m + 1) = chainArcAt ids W 0 :: tailArcs ids W 1 m
          from rfl, hm2]
      · have ha := List.mem_singleton.mp hmem2
        subst ha
        exact absurd rfl hlbl
  · rintro ⟨m, hm, rfl⟩
    simp only [frPath, hstart, hfin0, Option.isSome_some, Bool.true_and]
    have hmem : chainArcAt ids W 0 ∈ arcsAt G 0 := by
      rw [harc0]
      exact List.mem_cons_self _ _
    have hlbl : (chainArcAt ids W 0).ilabel ≠ rho := by
      show ids.getD 0 0 ≠ rho
      refine hidrho _ ?_
      rw [getD_lt _ _ (by omega : 0 < ids.length)]
      exact List.getElem_mem (by omega)
    have hnext : (chainArcAt ids W 0).nextstate = 1 := rfl
    have htail := tailArcs_frFrom ids W rho G hrho0 hidrho harck harcL m 1
      (Nat.le_refl _) (by omega)
    show frFrom G rho 0 0 (chainArcAt ids W 0 :: tailArcs ids W 1 m) = true
    simp [frFrom, hmem, hlbl, hnext, htail]

theorem tailArcs_words (ids : List Nat) (W : Rat) (hid0 : ∀ i ∈ ids, i ≠ 0) :
    ∀ (m k : Nat), k + m ≤ ids.length →
      pathWords (tailArcs ids W k m) = (ids.drop k).take m := by
  intro m
  induction m with
  | zero =>
    intro k _
    simp [pathWords, tailArcs]
  | succ m ih =>
    intro k h
    have hk : k < ids.length := by omega
    have hlbl0 : ids.getD k 0 ≠ 0 := by
      refine hid0 _ ?_
      rw [getD_lt _ _ hk]
      exact List.getElem_mem hk
    show pathWords (chainArcAt ids W k :: tailArcs ids W (k + 1) m) =
      (ids.drop k).take (m + 1)
    rw [List.drop_eq_getElem_cons hk,
      show ((ids[k] :: ids.drop (k + 1)).take (m + 1)) =
        ids[k] :: ((ids.drop (k + 1)).take m) from rfl, ← ih (k + 1) (by omega)]
    unfold pathWords
    have hp2 : decide ((chainArcAt ids W k).ilabel ≠ 0) = true :=
      decide_eq_true hlbl0
    rw [List.map_cons, List.filter_cons, if_pos hp2]
    rw [show (chainArcAt ids W k).ilabel = ids.getD k 0 from rfl, getD_lt _ _ hk]

theorem tailArcs_weight (ids : List Nat) (W : Rat) :
    ∀ (m k : Nat), k + m ≤ ids.length →
      pathWeight (tailArcs ids W k m) =
        if k + m = ids.length ∧ 1 ≤ m then W else 0 := by
  intro m
  induction m with
  | zero =>
    intro k _
    simp [pathWeight, tailArcs]
  | succ m ih =>
    intro k h
    have hcons : pathWeight (chainArcAt ids W k :: tailArcs ids W (k + 1) m) =
        (chainArcAt ids W k).weight + pathWeight (tailArcs ids W (k + 1) m) := by
      simp [pathWeight]
    show pathWeight (chainArcAt ids W k :: tailArcs ids W (k + 1) m) = _
    rw [hcons, ih (k + 1) (by omega),
      show (chainArcAt ids W k).weight = if k + 1 = ids.length then W else 0 from rfl]
    split_ifs <;> first | ring1 | (exfalso; omega)

/-! ## The claims -/

/-- C1 counterexample: for the phrase `a b` (projected length 2) with
word_discount −4 and phrase_discount −2, the boosting graph built from this
single phrase has TWO distinct nonempty non-wildcard first-return accepting
paths from the start state back to the start state: the full-phrase path of
weight −10 = 2·(−4) + (−2), and the proper-prefix path `a`(then epsilon
back) of weight 0 — so the non-wildcard accepting path from start back to
start is not unique, refuting the claim as stated. -/
theorem C1_counterexample :
    phraseWeight [1, 2] (-4) (-2) = -10 ∧
    ∃ G, detIdGraph [("a", 1), ("b", 2)] 9 [["a", "b"]] (-4) (-2) = some G ∧
      frPath G 9 (tailArcs [1, 2] (phraseWeight [1, 2] (-4) (-2)) 0 1) = true ∧
      frPath G 9 (tailArcs [1, 2] (phraseWeight [1, 2] (-4) (-2)) 0 2) = true ∧
      tailArcs [1, 2] (phraseWeight [1, 2] (-4) (-2)) 0 1 ≠
        tailArcs [1, 2] (phraseWeight [1, 2] (-4) (-2)) 0 2 ∧
      pathWeight (tailArcs [1, 2] (phraseWeight [1, 2] (-4) (-2)) 0 1) = 0 ∧
      pathWeight (tailArcs [1, 2] (phraseWeight [1, 2] (-4) (-2)) 0 2) = -10 ∧
      ¬ ∃! pa, frPath G 9 pa = true := by
  have hW : phraseWeight [1, 2] (-4) (-2) = -10 := by
    norm_num [phraseWeight]
  obtain ⟨G, hG, hstartG, hfin0, harc0, harck, harcL⟩ :=
    singleCanon [("a", 1), ("b", 2)] 9 (-4) (-2) ["a", "b"] [1, 2] (by decide) (by decide)
  have hiff := frPath_tail [1, 2] (phraseWeight [1, 2] (-4) (-2)) 9 G (by decide)
    (by decide) (by decide) hstartG hfin0 harc0 harck harcL
  have hp1 : frPath G 9 (tailArcs [1, 2] (phraseWeight [1, 2] (-4) (-2)) 0 1) = true :=
    (hiff _).mpr ⟨0, by decide, rfl⟩
  have hp2 : frPath G 9 (tailArcs [1, 2] (phraseWeight [1, 2] (-4) (-2)) 0 2) = true :=
    (hiff _).mpr ⟨1, by decide, rfl⟩
  have hdist : tailArcs [1, 2] (phraseWeight [1, 2] (-4) (-2)) 0 1 ≠
      tailArcs [1, 2] (phraseWeight [1, 2] (-4) (-2)) 0 2 := by
    intro h
    have h2 := congrArg List.length h
    simp [tailArcs] at h2
  refine ⟨hW, G, hG, hp1, hp2, hdist, ?_, ?_, ?_⟩
  · rw [tailArcs_weight [1, 2] (phraseWeight [1, 2] (-4) (-2)) 1 0 (by decide),
      if_neg (by decide)]
  · rw [tailArcs_weight [1, 2] (phraseWeight [1, 2] (-4) (-2)) 2 0 (by decide),
      if_pos (by decide), hW]
  · rintro ⟨pa, _, huniq⟩
    have h1 := huniq _ hp1
    have h2 := huniq _ hp2
    exact absurd (h1.trans h2.symm) hdist

/-- C1 (amended): for every accepted phrase whose projected id sequence has
length L, the arc consuming the phrase's last word carries weight
`L*word_discount + phrase_discount` and enters the phrase's fresh final
state; and for a boosting graph built from that single phrase (external
determinization modelled as the identity on the already-deterministic
chain), the non-wildcard first-return accepting path from the start state
back to the start state that consumes the ENTIRE phrase is unique and has
total weight `L*word_discount + phrase_discount` (proper-prefix first-return
paths also exist, with weight 0, so uniqueness holds only among full-phrase
paths). -/
theorem C1_phrase_weight (vocab : List (String × Nat)) (rho : Nat) (wd pd : Rat)
    (p : List String) (ids : List Nat)
    (hp : projectPhrase vocab p = some ids) (hne : ids ≠ [])
    (hval0 : ∀ kv ∈ vocab, kv.2 ≠ 0) (hvalr : ∀ kv ∈ vocab, kv.2 ≠ rho)
    (hrho0 : rho ≠ 0) :
    (∀ acc : GenResult, acc.g.finalOf.length = acc.g.numStates →
      ∃ s, (⟨ids.getLast hne, ids.getLast hne, phraseWeight ids wd pd,
          (genStep vocab wd pd 0 acc p).g.numStates - 1⟩ : Arc) ∈
            arcsAt (genStep vocab wd pd 0 acc p).g s ∧
        finalAt (genStep vocab wd pd 0 acc p).g
          ((genStep vocab wd pd 0 acc p).g.numStates - 1) = some 0) ∧
    (∃ G, detIdGraph vocab rho [p] wd pd = some G ∧
      ∃ pa, frPath G rho pa = true ∧ pathWords pa = ids ∧
        pathWeight pa = phraseWeight ids wd pd ∧
        ∀ qa, frPath G rho qa = true → pathWords qa = ids → qa = pa) := by
  have hL : 1 ≤ ids.length := List.length_pos.mpr hne
  have hid0 : ∀ i ∈ ids, i ≠ 0 := fun i hi => mem_snd_ne hval0 (projectPhrase_mem hp i hi)
  have hidrho : ∀ i ∈ ids, i ≠ rho :=
    fun i hi => mem_snd_ne hvalr (projectPhrase_mem hp i hi)
  constructor
  · intro acc hacc
    rw [genStep_accepted hp hne]
    dsimp only
    have hdll : ids.dropLast.length = ids.length - 1 := List.length_dropLast ids
    have hnum2 : ((((addRest (acc.g, 0) ids.dropLast).1.addState).1.addArc
          (addRest (acc.g, 0) ids.dropLast).2
          ⟨ids.getLast hne, ids.getLast hne, phraseWeight ids wd pd,
            (addRest (acc.g, 0) ids.dropLast).1.numStates⟩).setFinal
        (addRest (acc.g, 0) ids.dropLast).1.numStates (some 0)).numStates =
        (addRest (acc.g, 0) ids.dropLast).1.numStates + 1 := by
      rw [numStates_setFinal, numStates_addArc, numStates_addState]
    have hsp_le : (addRest (acc.g, 0) ids.dropLast).2 ≤
        (addRest (acc.g, 0) ids.dropLast).1.numStates := by
      rcases eq_or_ne ids.dropLast [] with hdl | hdl
      · rw [hdl]
        exact Nat.zero_le _
      · rw [addRest_snd _ hdl, addRest_numStates]
        omega
    refine ⟨(addRest (acc.g, 0) ids.dropLast).2, ?_, ?_⟩
    · rw [hnum2, Nat.add_sub_cancel, arcsAt_setFinal,
        arcsAt_addArc_self _ _ (by rw [numStates_addState]; omega)]
      exact List.mem_append_right _ (List.mem_singleton.mpr rfl)
    · rw [hnum2, Nat.add_sub_cancel]
      refine finalAt_setFinal_self _ _ ?_
      rw [finalLen_addArc, finalLen_addState, addRest_finalLen, hacc, addRest_numStates]
      omega
  · obtain ⟨G, hG, hstartG, hfin0, harc0, harck, harcL⟩ :=
      singleCanon vocab rho wd pd p ids hp hne
    refine ⟨G, hG, tailArcs ids (phraseWeight ids wd pd) 0 ids.length, ?_, ?_, ?_, ?_⟩
    · rw [frPath_tail ids (phraseWeight ids wd pd) rho G hrho0 hne hidrho hstartG hfin0
        harc0 harck harcL]
      exact ⟨ids.length - 1, by omega, by rw [show ids.length - 1 + 1 = ids.length
        from by omega]⟩
    · rw [tailArcs_words ids (phraseWeight ids wd pd) hid0 ids.length 0 (by omega),
        List.drop_zero, List.take_length]
    · rw [tailArcs_weight ids (phraseWeight ids wd pd) ids.length 0 (by omega),
        if_pos ⟨by omega, by omega⟩]
    · intro qa hqa hwords
      rw [frPath_tail ids (phraseWeight ids wd pd) rho G hrho0 hne hidrho hstartG hfin0
        harc0 harck harcL] at hqa
      obtain ⟨m, hm, rfl⟩ := hqa
      rw [tailArcs_words ids (phraseWeight ids wd pd) hid0 (m + 1) 0 (by omega),
        List.drop_zero] at hwords
      have hlen : (ids.take (m + 1)).length = ids.length := by rw [hwords]
      rw [List.length_take] at hlen
      have : m + 1 = ids.length := by omega
      rw [this]

/-- C1 witness: phrase `a b`, word_discount −4, phrase_discount −2. -/
theorem C1_witness :
    (∀ acc : GenResult, acc.g.finalOf.length = acc.g.numStates →
      ∃ s, (⟨([1, 2] : List Nat).getLast (by decide), ([1, 2] : List Nat).getLast (by decide),
          phraseWeight [1, 2] (-4) (-2),
          (genStep [("a", 1), ("b", 2)] (-4) (-2) 0 acc ["a", "b"]).g.numStates - 1⟩ : Arc) ∈
            arcsAt (genStep [("a", 1), ("b", 2)] (-4) (-2) 0 acc ["a", "b"]).g s ∧
        finalAt (genStep [("a", 1), ("b", 2)] (-4) (-2) 0 acc ["a", "b"]).g
          ((genStep [("a", 1), ("b", 2)] (-4) (-2) 0 acc ["a", "b"]).g.numStates - 1) =
          some 0) ∧
    (∃ G, detIdGraph [("a", 1), ("b", 2)] 9 [["a", "b"]] (-4) (-2) = some G ∧
      ∃ pa, frPath G 9 pa = true ∧ pathWords pa = [1, 2] ∧
        pathWeight pa = phraseWeight [1, 2] (-4) (-2) ∧
        ∀ qa, frPath G 9 qa = true → pathWords qa = [1, 2] → qa = pa) :=
  C1_phrase_weight [("a", 1), ("b", 2)] 9 (-4) (-2) ["a", "b"] [1, 2]
    (by decide) (by decide) (by decide) (by decide) (by decide)

/-! ## Other claim theorems -/

/-- C8: raw prefix-automaton construction allocates fresh states per phrase
with no up-front sharing: the automaton has exactly `1 + Σ` (projected
lengths of the accepted phrases) states; every arc entering a non-final
state — i.e. every prefix-word arc — carries zero weight; and every
non-start state has exactly one incoming arc while the start state has none
(so no state is shared between two phrases, even with a common word
prefix). -/
theorem C8_fresh_states (phrases : List (List String)) (vocab : List (String × Nat))
    (wd pd : Rat) :
    (genInitialGraph phrases vocab wd pd).g.numStates =
      1 + ((phrases.filter (fun p => (projectPhrase vocab p).isSome)).map List.length).sum ∧
    (∀ a ∈ (genInitialGraph phrases vocab wd pd).g.arcsOf.flatten,
      finalAt (genInitialGraph phrases vocab wd pd).g a.nextstate = none → a.weight = 0) ∧
    (∀ t, arcsIn (genInitialGraph phrases vocab wd pd).g t =
      if t ≠ 0 ∧ t < (genInitialGraph phrases vocab wd pd).g.numStates then 1 else 0) := by
  have hbase : GenInv ((⟨(VectorFst.empty.addState).1.setStart 0, []⟩ : GenResult).g) := by
    refine ⟨rfl, Nat.le_refl _, rfl, ?_, ?_, ?_⟩
    · intro a ha
      simp [VectorFst.empty, VectorFst.addState, VectorFst.setStart] at ha
    · intro t
      have hh : ((⟨(VectorFst.empty.addState).1.setStart 0, []⟩ : GenResult)).g.numStates
          = 1 := rfl
      rw [hh, if_neg (by omega)]
      simp [arcsIn, arcsAt, VectorFst.numStates, VectorFst.empty, VectorFst.addState,
        VectorFst.setStart]
    · intro a ha
      simp [VectorFst.empty, VectorFst.addState, VectorFst.setStart] at ha
  obtain ⟨hinv, hnum⟩ := genfold_inv vocab wd pd phrases _ hbase
  refine ⟨?_, ?_, ?_⟩
  · rw [genInitialGraph_def, hnum]
    rfl
  · rw [genInitialGraph_def]
    exact hinv.2.2.2.2.2
  · rw [genInitialGraph_def]
    exact hinv.2.2.2.2.1

/-- C8 witness: two phrases sharing the word prefix `a`; the graph still has
`1 + 2 + 2` fresh states, the prefix arc of the first phrase has zero
weight, and state 1 has exactly one incoming arc. -/
theorem C8_witness :
    (genInitialGraph [["a", "b"], ["a", "c"]] [("a", 1), ("b", 2), ("c", 3)]
        (-4) (-2)).g.numStates =
      1 + (([["a", "b"], ["a", "c"]].filter
        (fun p => (projectPhrase [("a", 1), ("b", 2), ("c", 3)] p).isSome)).map
          List.length).sum ∧
    (⟨1, 1, 0, 1⟩ : Arc).weight = 0 ∧
    arcsIn (genInitialGraph [["a", "b"], ["a", "c"]] [("a", 1), ("b", 2), ("c", 3)]
        (-4) (-2)).g 1 =
      if 1 ≠ 0 ∧ 1 < (genInitialGraph [["a", "b"], ["a", "c"]]
        [("a", 1), ("b", 2), ("c", 3)] (-4) (-2)).g.numStates then 1 else 0 :=
  ⟨(C8_fresh_states [["a", "b"], ["a", "c"]] [("a", 1), ("b", 2), ("c", 3)] (-4) (-2)).1,
   (C8_fresh_states [["a", "b"], ["a", "c"]] [("a", 1), ("b", 2), ("c", 3)] (-4) (-2)).2.1
     ⟨1, 1, 0, 1⟩ (by decide) (by decide),
   (C8_fresh_states [["a", "b"], ["a", "c"]] [("a", 1), ("b", 2), ("c", 3)] (-4) (-2)).2.2 1⟩

/-- C2: for a non-empty valid input (some phrase projects to a nonempty id
sequence), the graph built by `lattice_boosting_graph` — with the external
determinization represented by any routine meeting the spec's contract
`DetOk` — has exactly one final state (a unique state with a finite final
weight), that final state is the start state and a valid state of the
graph, its final weight is zero cost, and every other state is non-final. -/
theorem C2_single_final_start (det : VectorFst → VectorFst) (b : Builder)
    (phrases : List (List String)) (wd pd : Rat)
    (hne : ∃ p ∈ phrases, ∃ ids, projectPhrase b.word_to_int p = some ids ∧ ids ≠ [])
    (hdet : DetOk (genInitialGraph phrases b.word_to_int wd pd).g
      (det (genInitialGraph phrases b.word_to_int wd pd).g)) :
    ∃ G s0, lattice_boosting_graph det b phrases wd pd = some G ∧
      G.start = some s0 ∧ s0 < G.numStates ∧ finalAt G s0 = some 0 ∧
      (∀ s, s ≠ s0 → finalAt G s = none) ∧
      (∃! s, (finalAt G s).isSome = true) := by
  obtain ⟨hlen, ⟨s0, hstart, hs0⟩, hlab⟩ := hdet
  refine ⟨_, s0, canonicalize_eq _ b.rho_int hstart, ?_, ?_, ?_, ?_, ?_⟩
  · rw [start_addArc, start_setFinal, canonFold_start]
    exact hstart
  · rw [numStates_addArc, numStates_setFinal, canonFold_numStates]
    exact hs0
  · rw [finalAt_addArc]
    refine finalAt_setFinal_self _ _ ?_
    rw [canonFold_finalLen, hlen]
    exact hs0
  · intro s hne2
    rw [finalAt_addArc, finalAt_setFinal_ne _ _ (fun hh => hne2 hh.symm)]
    by_cases hlt : s < (det (genInitialGraph phrases b.word_to_int wd pd).g).numStates
    · exact canonFold_finalAt_mem _ _ _ _ (List.mem_range.mpr hlt) hne2
    · unfold finalAt
      refine getD_ge _ _ ?_
      rw [canonFold_finalLen, hlen]
      exact Nat.le_of_not_lt hlt
  · refine ⟨s0, ?_, ?_⟩
    · dsimp only
      rw [finalAt_addArc,
        finalAt_setFinal_self _ _ (by rw [canonFold_finalLen, hlen]; exact hs0)]
      rfl
    · intro s hs
      by_contra hne2
      rw [finalAt_addArc, finalAt_setFinal_ne _ _ (fun hh => hne2 hh.symm)] at hs
      by_cases hlt : s < (det (genInitialGraph phrases b.word_to_int wd pd).g).numStates
      · rw [canonFold_finalAt_mem _ _ _ _ (List.mem_range.mpr hlt) hne2] at hs
        simp at hs
      · have hz : finalAt ((List.range
            (det (genInitialGraph phrases b.word_to_int wd pd).g).numStates).foldl
            (canonStep s0) (det (genInitialGraph phrases b.word_to_int wd pd).g)) s
            = none := by
          unfold finalAt
          refine getD_ge _ _ ?_
          rw [canonFold_finalLen, hlen]
          exact Nat.le_of_not_lt hlt
        rw [hz] at hs
        simp at hs

/-- C2 witness: a one-phrase input with the identity as the (spec-conformant)
determinizer of the already-deterministic raw chain. -/
theorem C2_witness :
    ∃ G s0, lattice_boosting_graph (fun g => g) ⟨[("a", 1)], 2⟩ [["a"]] (-3) 0 = some G ∧
      G.start = some s0 ∧ s0 < G.numStates ∧ finalAt G s0 = some 0 ∧
      (∀ s, s ≠ s0 → finalAt G s = none) ∧
      (∃! s, (finalAt G s).isSome = true) :=
  C2_single_final_start (fun g => g) ⟨[("a", 1)], 2⟩ [["a"]] (-3) 0
    ⟨["a"], by decide, [1], by decide, by decide⟩ (by decide)

/-- C3: in the graph built by `lattice_boosting_graph` (external
determinization represented by any routine meeting `DetOk`), over a valid
vocabulary (no word mapped to the reserved epsilon id 0), every state other
than the start state has exactly one outgoing epsilon arc (input and output
labels 0), and that arc targets the start state with zero weight. -/
theorem C3_eps_backlinks (det : VectorFst → VectorFst) (b : Builder)
    (phrases : List (List String)) (wd pd : Rat)
    (hvalid : ∀ kv ∈ b.word_to_int, kv.2 ≠ 0)
    (hdet : DetOk (genInitialGraph phrases b.word_to_int wd pd).g
      (det (genInitialGraph phrases b.word_to_int wd pd).g)) :
    ∃ G s0, lattice_boosting_graph det b phrases wd pd = some G ∧
      G.start = some s0 ∧
      ∀ s, s < G.numStates → s ≠ s0 →
        (arcsAt G s).filter
          (fun a => decide (a.ilabel = 0) && decide (a.olabel = 0)) = [⟨0, 0, 0, s0⟩] := by
  obtain ⟨hlen, ⟨s0, hstart, hs0⟩, hlab⟩ := hdet
  refine ⟨_, s0, canonicalize_eq _ b.rho_int hstart, ?_, ?_⟩
  · rw [start_addArc, start_setFinal, canonFold_start]
    exact hstart
  · intro s hlt hne
    rw [numStates_addArc, numStates_setFinal, canonFold_numStates] at hlt
    rw [arcsAt_addArc_ne _ _ (fun hh => hne hh.symm), arcsAt_setFinal,
      canonFold_arcsAt_mem _ _ _ _ (List.nodup_range _) (List.mem_range.mpr hlt) hne hlt,
      List.filter_append]
    have hg : (arcsAt (det (genInitialGraph phrases b.word_to_int wd pd).g) s).filter
        (fun a => decide (a.ilabel = 0) && decide (a.olabel = 0)) = [] := by
      rw [List.filter_eq_nil_iff]
      intro a ha
      have hmem := arcsAt_subset_flatten _ _ a ha
      have hlbl := (det_labels phrases b.word_to_int wd pd _ hlab) a hmem
      have : a.ilabel ≠ 0 := mem_snd_ne hvalid hlbl.1
      simp [this]
    rw [hg]
    simp

/-- C3 witness. -/
theorem C3_witness :
    ∃ G s0, lattice_boosting_graph (fun g => g) ⟨[("a", 1)], 2⟩ [["a"]] (-3) 0 = some G ∧
      G.start = some s0 ∧
      ∀ s, s < G.numStates → s ≠ s0 →
        (arcsAt G s).filter
          (fun a => decide (a.ilabel = 0) && decide (a.olabel = 0)) = [⟨0, 0, 0, s0⟩] :=
  C3_eps_backlinks (fun g => g) ⟨[("a", 1)], 2⟩ [["a"]] (-3) 0 (by decide) (by decide)

/-- C4: in the graph built by `lattice_boosting_graph` (external
determinization represented by any routine meeting `DetOk`), over a valid
vocabulary (no word mapped to the wildcard id), the start state has exactly
one outgoing arc whose input and output labels both equal the wildcard id,
and that arc is a zero-weight self-loop on the start state. -/
theorem C4_wildcard_selfloop (det : VectorFst → VectorFst) (b : Builder)
    (phrases : List (List String)) (wd pd : Rat)
    (hvalid : ∀ kv ∈ b.word_to_int, kv.2 ≠ b.rho_int)
    (hdet : DetOk (genInitialGraph phrases b.word_to_int wd pd).g
      (det (genInitialGraph phrases b.word_to_int wd pd).g)) :
    ∃ G s0, lattice_boosting_graph det b phrases wd pd = some G ∧
      G.start = some s0 ∧
      (arcsAt G s0).filter
        (fun a => decide (a.ilabel = b.rho_int) && decide (a.olabel = b.rho_int)) =
        [⟨b.rho_int, b.rho_int, 0, s0⟩] := by
  obtain ⟨hlen, ⟨s0, hstart, hs0⟩, hlab⟩ := hdet
  refine ⟨_, s0, canonicalize_eq _ b.rho_int hstart, ?_, ?_⟩
  · rw [start_addArc, start_setFinal, canonFold_start]
    exact hstart
  · rw [arcsAt_addArc_self _ _ (by rw [numStates_setFinal, canonFold_numStates]; exact hs0),
      arcsAt_setFinal, canonFold_arcsAt_s0, List.filter_append]
    have hg : (arcsAt (det (genInitialGraph phrases b.word_to_int wd pd).g) s0).filter
        (fun a => decide (a.ilabel = b.rho_int) && decide (a.olabel = b.rho_int)) = [] := by
      rw [List.filter_eq_nil_iff]
      intro a ha
      have hmem := arcsAt_subset_flatten _ _ a ha
      have hlbl := (det_labels phrases b.word_to_int wd pd _ hlab) a hmem
      have : a.ilabel ≠ b.rho_int := mem_snd_ne hvalid hlbl.1
      simp [this]
    rw [hg]
    simp

/-- C4 witness. -/
theorem C4_witness :
    ∃ G s0, lattice_boosting_graph (fun g => g) ⟨[("a", 1)], 2⟩ [["a"]] (-3) 0 = some G ∧
      G.start = some s0 ∧
      (arcsAt G s0).filter
        (fun a => decide (a.ilabel = (Builder.mk [("a", 1)] 2).rho_int) &&
          decide (a.olabel = (Builder.mk [("a", 1)] 2).rho_int)) =
        [⟨(Builder.mk [("a", 1)] 2).rho_int, (Builder.mk [("a", 1)] 2).rho_int, 0, s0⟩] :=
  C4_wildcard_selfloop (fun g => g) ⟨[("a", 1)], 2⟩ [["a"]] (-3) 0 (by decide) (by decide)

/-- C5: for every phrase list in which some phrase contains a word absent
from the usable vocabulary, the build drops that entire phrase — the raw
graph equals the one built from the fully in-vocabulary phrases alone — a
diagnostic is emitted naming every missing word together with the original
phrase, and processing continues over the remaining phrases without
failing. -/
theorem C5_oov_drops_whole_phrase (vocab : List (String × Nat)) (wd pd : Rat)
    (phrases : List (List String)) (p : List String) (w : String)
    (hp : p ∈ phrases) (hw : w ∈ p) (hoov : vlookup vocab w = none) :
    (genInitialGraph phrases vocab wd pd).g =
      (genInitialGraph (phrases.filter (fun q => (projectPhrase vocab q).isSome))
        vocab wd pd).g ∧
    (oovWords vocab p, p) ∈ (genInitialGraph phrases vocab wd pd).diags ∧
    w ∈ oovWords vocab p := by
  obtain ⟨pre, post, rfl⟩ := List.append_of_mem hp
  have hnone : projectPhrase vocab p = none := projectPhrase_none_of_oov hw hoov
  refine ⟨?_, diag_mem_of_oov vocab wd pd pre post p hnone, oovWords_mem hw hoov⟩
  rw [genInitialGraph_def, genInitialGraph_def, fold_g_filter]

/-- C5 witness: a list with one OOV phrase and one in-vocabulary phrase. -/
theorem C5_witness :
    (genInitialGraph [["a", "xyz"], ["a"]] [("a", 1)] (-3) 0).g =
      (genInitialGraph ([["a", "xyz"], ["a"]].filter
        (fun q => (projectPhrase [("a", 1)] q).isSome)) [("a", 1)] (-3) 0).g ∧
    (oovWords [("a", 1)] ["a", "xyz"], ["a", "xyz"]) ∈
      (genInitialGraph [["a", "xyz"], ["a"]] [("a", 1)] (-3) 0).diags ∧
    "xyz" ∈ oovWords [("a", 1)] ["a", "xyz"] :=
  C5_oov_drops_whole_phrase [("a", 1)] (-3) 0 [["a", "xyz"], ["a"]] ["a", "xyz"] "xyz"
    (by decide) (by decide) (by decide)

/-- C6 counterexample: the phrase list `[[]]` contains a phrase (the empty
one) whose projected id sequence is empty, and the build discards it with NO
diagnostic — the diagnostics list stays empty — refuting the claim that the
discard goes through the same diagnostic path as the out-of-vocabulary
case.  The phrase still contributes no states or arcs. -/
theorem C6_counterexample :
    (genInitialGraph [[]] [("a", 1)] (-3) 0).diags = [] ∧
    (genInitialGraph [[]] [("a", 1)] (-3) 0).g.numStates = 1 := by
  decide

/-- C6 (amended): a phrase whose projected id sequence is empty after
vocabulary mapping is discarded by a separate emptiness check, silently —
no diagnostic is emitted — and contributes no states or arcs: the build
result is identical to the one without that phrase. -/
theorem C6_empty_projection_silent (vocab : List (String × Nat)) (wd pd : Rat)
    (pre post : List (List String)) (p : List String)
    (hp : projectPhrase vocab p = some []) :
    genInitialGraph (pre ++ p :: post) vocab wd pd =
      genInitialGraph (pre ++ post) vocab wd pd := by
  rw [genInitialGraph_def, genInitialGraph_def, List.foldl_append, List.foldl_append,
    List.foldl_cons, genStep_nilIds hp]

/-- C6 witness: the empty phrase between two other phrases. -/
theorem C6_witness :
    genInitialGraph [["a"], [], ["b"]] [("a", 1), ("b", 2)] (-3) 0 =
      genInitialGraph [["a"], ["b"]] [("a", 1), ("b", 2)] (-3) 0 :=
  C6_empty_projection_silent [("a", 1), ("b", 2)] (-3) 0 [["a"]] [["b"]] [] (by decide)

/-- C9 counterexample: when every phrase is dropped, the raw automaton is
the bare start state, yet the build — with the external determinization
modelled as the identity on this already-deterministic automaton — still
returns a graph whose start state is final with zero weight and carries a
wildcard self-loop, refuting the claim that no such graph is produced. -/
theorem C9_counterexample :
    detIdGraph [("a", 1)] 2 [["xyz"]] (-3) 0 =
      some ⟨[[⟨2, 2, 0, 0⟩]], [some 0], some 0⟩ := by
  decide

/-- C9 (amended): if every phrase is dropped (including when the phrase list
is empty), the raw automaton consists of exactly the start state with no
arcs and no final state, its accepted language is empty, and the build
(external determinization modelled as the identity on this
already-deterministic automaton) nevertheless returns the single-state graph
whose start state is final with a wildcard self-loop. -/
theorem C9_all_dropped (vocab : List (String × Nat)) (rho : Nat) (wd pd : Rat)
    (phrases : List (List String))
    (hdrop : ∀ p ∈ phrases, projectPhrase vocab p = none ∨ p = []) :
    (genInitialGraph phrases vocab wd pd).g = ⟨[[]], [none], some 0⟩ ∧
    (∀ pa, accPath (genInitialGraph phrases vocab wd pd).g pa = false) ∧
    detIdGraph vocab rho phrases wd pd =
      some ⟨[[⟨rho, rho, 0, 0⟩]], [some 0], some 0⟩ := by
  have h1 : (genInitialGraph phrases vocab wd pd).g = ⟨[[]], [none], some 0⟩ := by
    rw [genInitialGraph_def, fold_g_dropped vocab wd pd phrases hdrop]
    rfl
  refine ⟨h1, ?_, ?_⟩
  · intro pa
    rw [h1]
    cases pa <;> simp [accPath, accFrom, arcsAt, finalAt]
  · show canonicalize (genInitialGraph phrases vocab wd pd).g rho = _
    rw [h1]
    rfl

/-- C9 witness: one out-of-vocabulary phrase, so every phrase is dropped. -/
theorem C9_witness :
    (genInitialGraph [["xyz"]] [("a", 1)] (-3) 0).g = ⟨[[]], [none], some 0⟩ ∧
    (∀ pa, accPath (genInitialGraph [["xyz"]] [("a", 1)] (-3) 0).g pa = false) ∧
    detIdGraph [("a", 1)] 3 [["xyz"]] (-3) 0 =
      some ⟨[[⟨3, 3, 0, 0⟩]], [some 0], some 0⟩ :=
  C9_all_dropped [("a", 1)] 3 (-3) 0 [["xyz"]] (by decide)

/-- C7: builder construction fails with a `VocabularyError` exactly when the
vocabulary table is malformed, the epsilon entry is missing, or the wildcard
entry is missing — each condition mapped to its own error, checked in that
order — and succeeds on a well-formed table containing both reserved
entries.  The error is the result of the whole construction, so no builder
with a partially-loaded vocabulary is ever returned. -/
theorem C7_vocabulary_errors (lines : List String) :
    ((builderInit lines = .error .malformedTable) ↔ loadVocabTable lines = none) ∧
    (∀ tbl : List (String × Nat), loadVocabTable lines = some tbl →
      (((builderInit lines = .error .missingEpsilon) ↔ vlookup tbl "<eps>" = none) ∧
       ((builderInit lines = .error .missingWildcard) ↔
         ((vlookup tbl "<eps>").isSome ∧ vlookup tbl "#0" = none)) ∧
       ((vlookup tbl "<eps>").isSome → (vlookup tbl "#0").isSome →
         ∃ b, builderInit lines = .ok b))) := by
  refine ⟨⟨?_, fun h => builderInit_malformed h⟩, ?_⟩
  · intro h
    match hload : loadVocabTable lines with
    | none => rfl
    | some tbl =>
      exfalso
      match heps : vlookup tbl "<eps>" with
      | none =>
        rw [builderInit_noEps hload heps] at h
        simp at h
      | some e =>
        match hrho : vlookup (tbl.filter (fun kv => kv.1 ≠ "<eps>")) "#0" with
        | none =>
          rw [builderInit_noRho hload heps hrho] at h
          simp at h
        | some rho =>
          rw [builderInit_ok_shape hload heps hrho] at h
          simp at h
  · intro tbl hload
    refine ⟨⟨?_, fun h => builderInit_noEps hload h⟩, ⟨?_, ?_⟩, ?_⟩
    · intro h
      match heps : vlookup tbl "<eps>" with
      | none => rfl
      | some e =>
        exfalso
        match hrho : vlookup (tbl.filter (fun kv => kv.1 ≠ "<eps>")) "#0" with
        | none =>
          rw [builderInit_noRho hload heps hrho] at h
          simp at h
        | some rho =>
          rw [builderInit_ok_shape hload heps hrho] at h
          simp at h
    · intro h
      match heps : vlookup tbl "<eps>" with
      | none =>
        rw [builderInit_noEps hload heps] at h
        simp at h
      | some e =>
        match hrho : vlookup (tbl.filter (fun kv => kv.1 ≠ "<eps>")) "#0" with
        | none =>
          refine ⟨rfl, ?_⟩
          rw [← vlookup_filter_ne (show ("#0" : String) ≠ "<eps>" by decide)]
          exact hrho
        | some rho =>
          rw [builderInit_ok_shape hload heps hrho] at h
          simp at h
    · rintro ⟨h1, h2⟩
      match heps : vlookup tbl "<eps>" with
      | none =>
        rw [heps] at h1
        cases h1
      | some e =>
        refine builderInit_noRho hload heps ?_
        rw [vlookup_filter_ne (show ("#0" : String) ≠ "<eps>" by decide)]
        exact h2
    · intro h1 h2
      match heps : vlookup tbl "<eps>" with
      | none =>
        rw [heps] at h1
        cases h1
      | some e =>
        match hrho2 : vlookup tbl "#0" with
        | none =>
          rw [hrho2] at h2
          cases h2
        | some rho =>
          have hrho3 : vlookup (tbl.filter (fun kv => kv.1 ≠ "<eps>")) "#0" = some rho := by
            rw [vlookup_filter_ne (show ("#0" : String) ≠ "<eps>" by decide)]
            exact hrho2
          exact ⟨_, builderInit_ok_shape hload heps hrho3⟩

/-- C7 witness: a well-formed two-entry table with both reserved entries. -/
theorem C7_witness :
    ∃ b, builderInit ["<eps> 0", "#0 1"] = .ok b :=
  ((C7_vocabulary_errors ["<eps> 0", "#0 1"]).2 [("<eps>", 0), ("#0", 1)]
    (by decide)).2.2 (by decide) (by decide)

/-- C10: because the epsilon and wildcard entries are deleted from the
usable lookup table at builder construction, a phrase containing the literal
token `"<eps>"` or `"#0"` is out-of-vocabulary for the builder: its
projection fails, the whole phrase contributes nothing to the graph, and
the OOV diagnostic is emitted — even though both symbols were present in
the vocabulary table. -/
theorem C10_reserved_symbols_dropped (lines : List String) (b : Builder)
    (hok : builderInit lines = .ok b) (p : List String)
    (hp : "<eps>" ∈ p ∨ "#0" ∈ p) (pre post : List (List String)) (wd pd : Rat) :
    vlookup b.word_to_int "<eps>" = none ∧
    vlookup b.word_to_int "#0" = none ∧
    projectPhrase b.word_to_int p = none ∧
    (genInitialGraph (pre ++ p :: post) b.word_to_int wd pd).g =
      (genInitialGraph (pre ++ post) b.word_to_int wd pd).g ∧
    (oovWords b.word_to_int p, p) ∈
      (genInitialGraph (pre ++ p :: post) b.word_to_int wd pd).diags := by
  have hmap : ∃ tbl : List (String × Nat),
      b.word_to_int = (tbl.filter (fun kv => kv.1 ≠ "<eps>")).filter
        (fun kv => kv.1 ≠ "#0") := by
    match hload : loadVocabTable lines with
    | none =>
      rw [builderInit_malformed hload] at hok
      cases hok
    | some tbl =>
      match heps : vlookup tbl "<eps>" with
      | none =>
        rw [builderInit_noEps hload heps] at hok
        cases hok
      | some e =>
        match hrho : vlookup (tbl.filter (fun kv => kv.1 ≠ "<eps>")) "#0" with
        | none =>
          rw [builderInit_noRho hload heps hrho] at hok
          cases hok
        | some rho =>
          rw [builderInit_ok_shape hload heps hrho] at hok
          cases hok
          exact ⟨tbl, rfl⟩
  obtain ⟨tbl, htbl⟩ := hmap
  have heps : vlookup b.word_to_int "<eps>" = none := by
    rw [htbl, vlookup_filter_ne (by decide), vlookup_filter_self]
  have hrho : vlookup b.word_to_int "#0" = none := by
    rw [htbl, vlookup_filter_self]
  have hnone : projectPhrase b.word_to_int p = none := by
    rcases hp with hin | hin
    · exact projectPhrase_none_of_oov hin heps
    · exact projectPhrase_none_of_oov hin hrho
  exact ⟨heps, hrho, hnone, fold_g_skip_oov _ wd pd pre post p hnone,
    diag_mem_of_oov _ wd pd pre post p hnone⟩

/-- C10 witness: a builder over a table containing both reserved entries,
and a phrase using the literal epsilon symbol. -/
theorem C10_witness :
    vlookup (Builder.mk [("a", 1)] 2).word_to_int "<eps>" = none ∧
    vlookup (Builder.mk [("a", 1)] 2).word_to_int "#0" = none ∧
    projectPhrase (Builder.mk [("a", 1)] 2).word_to_int ["<eps>", "a"] = none ∧
    (genInitialGraph ([] ++ ["<eps>", "a"] :: [["a"]])
        (Builder.mk [("a", 1)] 2).word_to_int (-3) 0).g =
      (genInitialGraph ([] ++ [["a"]]) (Builder.mk [("a", 1)] 2).word_to_int (-3) 0).g ∧
    (oovWords (Builder.mk [("a", 1)] 2).word_to_int ["<eps>", "a"], ["<eps>", "a"]) ∈
      (genInitialGraph ([] ++ ["<eps>", "a"] :: [["a"]])
        (Builder.mk [("a", 1)] 2).word_to_int (-3) 0).diags :=
  C10_reserved_symbols_dropped ["<eps> 0", "a 1", "#0 2"] (Builder.mk [("a", 1)] 2)
    rfl ["<eps>", "a"] (Or.inl (by decide)) [] [["a"]] (-3) 0

end Boosting
